import Mathlib

/-!
# Verification of the vector-database core of `RAG_app`

Shallow embedding of `src/backend/vector_database.py` (the `FAISSVectorDB`
class, the `ChromaVectorDB` adapter, and `VectorDatabaseManager`).

Modelling conventions:

* Python `dict`s are modelled as insertion-ordered association lists
  (`alGet` / `alSet` / `alErase` below reproduce lookup, update-in-place,
  and `del` on a dict with unique keys, including insertion-order
  preservation on update).
* Embedding vectors (`numpy` float arrays) are modelled as `List Int`
  with exact arithmetic; the sentence-transformers `encode` function and
  `faiss.normalize_L2` are opaque parameters (`Env.encode`,
  `Env.normalize`), since only the algorithmic structure of the index
  code, never the float values, is at stake in the claims.
* The FAISS index object is modelled as the list of its stored vectors;
  `IndexFlatIP.search` returns the `top_k` largest inner products in
  descending order and `IndexFlatL2.search` the `top_k` smallest squared
  L2 distances in ascending order, ties broken by insertion order
  (stable sort).  `IndexHNSWFlat` (an approximate L2 index) is modelled
  as exact L2 search; no claim depends on its approximation.
* The keys of the Python dict `index_to_id` are `str(faiss_index)`;
  since `str` is injective on the naturals and every access uses
  `str(idx)`, the mapping is modelled with `Nat` keys directly.
* File persistence (`_save_index`) is modelled as a log of file-system
  operations appended to the state, recording which files are written
  and in which order.
-/

/-! ## Association lists (Python `dict` semantics) -/

section AList

variable {K V : Type} [DecidableEq K]

/-- `d[k]` / `d.get(k)`: first binding of `k`, if any. -/
def alGet : List (K × V) → K → Option V
  | [], _ => none
  | (k', v) :: t, k => if k' = k then some v else alGet t k

/-- `d[k] = v`: update in place when the key exists (keeping its
insertion position, as Python dicts do), else append. -/
def alSet : List (K × V) → K → V → List (K × V)
  | [], k, v => [(k, v)]
  | (k', v') :: t, k, v => if k' = k then (k, v) :: t else (k', v') :: alSet t k v

/-- `del d[k]`: remove the binding of `k` (the first one; with unique
keys this is the only one). -/
def alErase : List (K × V) → K → List (K × V)
  | [], _ => []
  | (k', v') :: t, k => if k' = k then t else (k', v') :: alErase t k

/-- `k in d`. -/
def alContains (l : List (K × V)) (k : K) : Bool :=
  (alGet l k).isSome

/-- The keys of the dict, in insertion order. -/
def alKeys (l : List (K × V)) : List K :=
  l.map Prod.fst

theorem alGet_set_self (l : List (K × V)) (k : K) (v : V) :
    alGet (alSet l k v) k = some v := by
  induction l with
  | nil => simp [alGet, alSet]
  | cons p t ih =>
    obtain ⟨k', v'⟩ := p
    by_cases h : k' = k <;> simp [alGet, alSet, h, ih]

theorem alGet_set_ne (l : List (K × V)) {k k' : K} (v : V) (h : k' ≠ k) :
    alGet (alSet l k v) k' = alGet l k' := by
  induction l with
  | nil => simp [alGet, alSet, Ne.symm h]
  | cons p t ih =>
    obtain ⟨k₀, v₀⟩ := p
    by_cases hk : k₀ = k
    · subst hk
      simp [alGet, alSet, Ne.symm h]
    · by_cases hk' : k₀ = k'
      · subst hk'
        simp [alGet, alSet, hk, h]
      · simp [alGet, alSet, hk, hk', ih]

theorem alSet_not_mem {l : List (K × V)} {k : K} (h : alGet l k = none) (v : V) :
    alSet l k v = l ++ [(k, v)] := by
  induction l with
  | nil => simp [alSet]
  | cons p t ih =>
    obtain ⟨k₀, v₀⟩ := p
    by_cases hk : k₀ = k
    · simp [alGet, hk] at h
    · simp [alGet, hk] at h
      simp [alSet, hk, ih h]

theorem alGet_append_none {l : List (K × V)} {k : K} (h : alGet l k = none)
    (r : List (K × V)) : alGet (l ++ r) k = alGet r k := by
  induction l with
  | nil => rfl
  | cons p t ih =>
    obtain ⟨k₀, v₀⟩ := p
    by_cases hk : k₀ = k
    · simp [alGet, hk] at h
    · simp only [alGet, hk, if_false, List.cons_append] at h ⊢
      exact ih h

theorem alGet_append_left {l : List (K × V)} {k : K} {v : V}
    (h : alGet l k = some v) (r : List (K × V)) : alGet (l ++ r) k = some v := by
  induction l with
  | nil => simp [alGet] at h
  | cons p t ih =>
    obtain ⟨k₀, v₀⟩ := p
    by_cases hk : k₀ = k
    · simp only [alGet, hk, if_true, List.cons_append] at h ⊢
      simpa using h
    · simp only [alGet, hk, if_false, List.cons_append] at h ⊢
      exact ih h

theorem alGet_erase_ne (l : List (K × V)) {k k' : K} (h : k' ≠ k) :
    alGet (alErase l k) k' = alGet l k' := by
  induction l with
  | nil => simp [alErase]
  | cons p t ih =>
    obtain ⟨k₀, v₀⟩ := p
    by_cases hk : k₀ = k
    · subst hk
      simp [alGet, alErase, Ne.symm h]
    · by_cases hk' : k₀ = k'
      · subst hk'
        simp [alGet, alErase, hk]
      · simp [alGet, alErase, hk, hk', ih]

theorem alGet_eq_none_iff (l : List (K × V)) (k : K) :
    alGet l k = none ↔ k ∉ alKeys l := by
  induction l with
  | nil => simp [alGet, alKeys]
  | cons p t ih =>
    obtain ⟨k₀, v₀⟩ := p
    by_cases hk : k₀ = k
    · subst hk
      simp [alGet, alKeys]
    · simp only [alGet, hk, if_false, alKeys, List.map_cons, List.mem_cons, not_or]
      constructor
      · intro h
        exact ⟨Ne.symm hk, ih.1 h⟩
      · intro h
        exact ih.2 h.2

theorem alGet_erase_self {l : List (K × V)} (hnd : (alKeys l).Nodup) (k : K) :
    alGet (alErase l k) k = none := by
  induction l with
  | nil => simp [alErase, alGet]
  | cons p t ih =>
    obtain ⟨k₀, v₀⟩ := p
    simp only [alKeys, List.map_cons, List.nodup_cons] at hnd
    by_cases hk : k₀ = k
    · subst hk
      simp only [alErase, if_pos rfl]
      exact (alGet_eq_none_iff t k₀).2 hnd.1
    · simp only [alErase, hk, if_false, alGet]
      exact ih hnd.2

theorem alErase_not_mem {l : List (K × V)} {k : K} (h : alGet l k = none) :
    alErase l k = l := by
  induction l with
  | nil => simp [alErase]
  | cons p t ih =>
    obtain ⟨k₀, v₀⟩ := p
    by_cases hk : k₀ = k
    · simp [alGet, hk] at h
    · simp [alGet, hk] at h
      simp [alErase, hk, ih h]

theorem length_alErase {l : List (K × V)} {k : K} {v : V}
    (h : alGet l k = some v) : (alErase l k).length + 1 = l.length := by
  induction l with
  | nil => simp [alGet] at h
  | cons p t ih =>
    obtain ⟨k₀, v₀⟩ := p
    by_cases hk : k₀ = k
    · simp [alErase, hk]
    · simp [alGet, hk] at h
      simp [alErase, hk, ih h]

theorem alErase_sublist (l : List (K × V)) (k : K) : (alErase l k).Sublist l := by
  induction l with
  | nil => simp [alErase]
  | cons p t ih =>
    obtain ⟨k₀, v₀⟩ := p
    by_cases hk : k₀ = k
    · simp only [alErase, hk, if_true]
      exact List.sublist_cons_self _ _
    · simp only [alErase, hk, if_false]
      exact ih.cons₂ _

theorem mem_of_alGet {l : List (K × V)} {k : K} {v : V}
    (h : alGet l k = some v) : (k, v) ∈ l := by
  induction l with
  | nil => simp [alGet] at h
  | cons p t ih =>
    obtain ⟨k₀, v₀⟩ := p
    by_cases hk : k₀ = k
    · subst hk
      simp [alGet] at h
      simp [h]
    · simp [alGet, hk] at h
      exact List.mem_cons_of_mem _ (ih h)

theorem alGet_of_mem {l : List (K × V)} (hnd : (alKeys l).Nodup)
    {k : K} {v : V} (h : (k, v) ∈ l) : alGet l k = some v := by
  induction l with
  | nil => simp at h
  | cons p t ih =>
    obtain ⟨k₀, v₀⟩ := p
    simp only [alKeys, List.map_cons, List.nodup_cons] at hnd
    rcases List.mem_cons.1 h with h | h
    · injection h with h1 h2
      subst h1
      subst h2
      simp [alGet]
    · have hk : k₀ ≠ k := by
        rintro rfl
        exact hnd.1 (List.mem_map_of_mem Prod.fst h)
      simp [alGet, hk, ih hnd.2 h]

theorem alSet_append_mid {pre : List (K × V)} {k : K}
    (h : k ∉ alKeys pre) (d v : V) (t : List (K × V)) :
    alSet (pre ++ (k, d) :: t) k v = pre ++ (k, v) :: t := by
  induction pre with
  | nil => simp [alSet]
  | cons p r ih =>
    obtain ⟨k₀, v₀⟩ := p
    simp only [alKeys, List.map_cons, List.mem_cons, not_or] at h
    simp [alSet, Ne.symm h.1, ih h.2]

theorem alContains_set (l : List (K × V)) (k : K) (v : V) :
    alContains (alSet l k v) k = true := by
  simp [alContains, alGet_set_self]

theorem alContains_set_of (l : List (K × V)) {k : K} (k' : K) (v : V)
    (h : alContains l k = true) : alContains (alSet l k' v) k = true := by
  by_cases hk : k = k'
  · subst hk
    simp [alContains, alGet_set_self]
  · simpa [alContains, alGet_set_ne l v hk] using h

end AList

/-! ## Data model (`vector_database.py` toplevel) -/

/-- Embedding vector.  `numpy` float arrays are modelled with exact
integer coordinates; only the algorithmic structure matters. -/
abbrev Vec := List Int

/-- Inner product, the score computed by `faiss.IndexFlatIP`. -/
def dot (a b : Vec) : Int :=
  (List.zipWith (· * ·) a b).sum

/-- Squared L2 distance, the score computed by `faiss.IndexFlatL2`. -/
def sqL2 (a b : Vec) : Int :=
  (List.zipWith (fun x y => (x - y) * (x - y)) a b).sum

/-- `VectorDBConfig.index_type`.  The source stores a string compared
against three literals, any other string selecting the `IndexFlatIP`
default in `_create_index`; `other` stands for all such strings. -/
inductive IndexType
  | flatIP
  | flatL2
  | hnsw
  | other
deriving DecidableEq

/-- `VectorDBConfig` dataclass (field defaults as in the source). -/
structure VectorDBConfig where
  db_type : String := "chroma"
  db_path : String := "./vector_db"
  collection_name : String := "rag_documents"
  embedding_model : String := "sentence-transformers/all-MiniLM-L6-v2"
  dimension : Nat := 384
  index_type : IndexType := .flatIP
  metric : String := "cosine"
  max_elements : Nat := 1000000

/-- The opaque external collaborators of `FAISSVectorDB`: the
sentence-transformers model (`encode`) and `faiss.normalize_L2`,
together with the configuration. -/
structure Env where
  cfg : VectorDBConfig
  encode : String → Vec
  normalize : Vec → Vec

/-- One record of the `documents: List[Dict[str, Any]]` argument of
`add_documents`.  `none` models a dict missing the `"id"` / `"content"`
key (access raises `KeyError`); `doc.get("metadata", {})` never fails,
so `metadata` is total.  Scalar metadata values are modelled as
strings. -/
structure DocRecord where
  id : Option String
  content : Option String
  metadata : List (String × String)
deriving DecidableEq

/-- One value of `FAISSVectorDB.document_store`. -/
structure StoredDoc where
  content : String
  metadata : List (String × String)
  faiss_index : Nat
deriving DecidableEq

/-- The `VectorSearchResult` dataclass.  `document_title` and
`chunk_index` are `metadata.get('title', '')` / `metadata.get('chunk_index', 0)`
(scalar values modelled as strings, the default `0` as `"0"`). -/
structure VectorSearchResult where
  id : String
  content : String
  metadata : List (String × String)
  score : Int
  document_title : String
  chunk_index : String
deriving DecidableEq

/-- File-system operations performed by `_save_index`.  The last two
constructors exist only to express the write-to-temp + rename protocol
that the specification describes; the source never performs them. -/
inductive FsOp
  | writeIndexFile
  | writeMetadataFile
  | writeTempMetadataFile
  | renameMetadataFile
deriving DecidableEq

/-- In-memory state of a `FAISSVectorDB` instance, plus the log of file
writes it has issued.  `indexVecs` is the raw FAISS index (its list of
stored vectors; `ntotal` is the length). -/
structure FaissState where
  indexVecs : List Vec
  document_store : List (String × StoredDoc)
  id_to_index : List (String × Nat)
  index_to_id : List (Nat × String)
  log : List FsOp
deriving DecidableEq

/-- A freshly constructed `FAISSVectorDB` (no pre-existing files on
disk): empty index, empty dicts. -/
def emptyFaissState : FaissState :=
  { indexVecs := [], document_store := [], id_to_index := [], index_to_id := [], log := [] }

namespace FAISSVectorDB

/-- `_save_index`: `faiss.write_index` writes the index file, then the
metadata JSON is written directly in place (`open(path, "w")` followed
by `json.dump`), in that order. -/
def save_index (st : FaissState) : FaissState :=
  { st with log := st.log ++ [FsOp.writeIndexFile, FsOp.writeMetadataFile] }

/-- `texts = [doc["content"] for doc in documents]`: `none` models the
`KeyError` raised (and caught by the surrounding `except`) when a
record has no `"content"` key. -/
def getContents : List DocRecord → Option (List String)
  | [] => some []
  | d :: ds =>
    match d.content with
    | none => none
    | some c => (getContents ds).map (c :: ·)

/-- The metadata loop of `add_documents` (`for i, doc in enumerate(documents)`).
`start` is `start_index = self.index.ntotal` captured before `index.add`;
a record without `"id"` raises mid-loop, so the partially updated state
is returned with `false`.  Contents were already read successfully by
`getContents`, hence `getD` is exact in the loop. -/
def addLoop (start : Nat) : FaissState → Nat → List DocRecord → Bool × FaissState
  | st, _, [] => (true, st)
  | st, i, d :: ds =>
    match d.id with
    | none => (false, st)
    | some docId =>
      addLoop start
        { st with
          document_store := alSet st.document_store docId
            { content := d.content.getD "", metadata := d.metadata, faiss_index := start + i },
          id_to_index := alSet st.id_to_index docId (start + i),
          index_to_id := alSet st.index_to_id (start + i) docId }
        (i + 1) ds

/-- The embeddings added to the raw index for a batch of texts:
`encode`, then `faiss.normalize_L2` when the index type is
`IndexFlatIP`. -/
def embedBatch (env : Env) (texts : List String) : List Vec :=
  if env.cfg.index_type = IndexType.flatIP then
    (texts.map env.encode).map env.normalize
  else
    texts.map env.encode

/-- `FAISSVectorDB.add_documents`. -/
def add_documents (env : Env) (st : FaissState) (docs : List DocRecord) :
    Bool × FaissState :=
  match getContents docs with
  | none => (false, st)
  | some texts =>
    let embs := embedBatch env texts
    match addLoop st.indexVecs.length { st with indexVecs := st.indexVecs ++ embs } 0 docs with
    | (true, st2) => (true, save_index st2)
    | (false, st2) => (false, st2)

/-- Comparison used by the raw `index.search`: descending inner product
for `IndexFlatIP` (and the unknown-string default, which also builds an
`IndexFlatIP`), ascending (squared) L2 distance otherwise. -/
def rankRel (t : IndexType) : Int × Nat → Int × Nat → Prop :=
  match t with
  | .flatL2 => fun a b => a.1 ≤ b.1
  | .hnsw => fun a b => a.1 ≤ b.1
  | _ => fun a b => b.1 ≤ a.1

instance rankRelDecidable (t : IndexType) : DecidableRel (rankRel t) :=
  match t with
  | .flatL2 => fun a b => (inferInstance : Decidable (a.1 ≤ b.1))
  | .hnsw => fun a b => (inferInstance : Decidable (a.1 ≤ b.1))
  | .flatIP => fun a b => (inferInstance : Decidable (b.1 ≤ a.1))
  | .other => fun a b => (inferInstance : Decidable (b.1 ≤ a.1))

instance rankRelTotal (t : IndexType) : IsTotal (Int × Nat) (rankRel t) :=
  ⟨by intro a b; cases t <;> exact Int.le_total _ _⟩

instance rankRelTrans (t : IndexType) : IsTrans (Int × Nat) (rankRel t) :=
  ⟨by
    intro a b c h1 h2
    cases t <;> simp only [rankRel] at h1 h2 ⊢ <;> omega⟩

/-- The score each index type computes for a stored vector. -/
def metricScore (t : IndexType) (q v : Vec) : Int :=
  match t with
  | .flatL2 => sqL2 q v
  | .hnsw => sqL2 q v
  | _ => dot q v

/-- `scores, indices = self.index.search(query, top_k)`: every stored
vector is scored, ranked (stably: FAISS flat scans keep first-inserted
first on ties), and the best `top_k` pairs `(score, position)` are
returned.  Fewer than `top_k` pairs when `ntotal < top_k` models the
`-1` padding at which the result loop breaks. -/
def rank (t : IndexType) (vecs : List Vec) (q : Vec) (k : Nat) : List (Int × Nat) :=
  (List.insertionSort (rankRel t)
    (vecs.enum.map (fun p => (metricScore t q p.2, p.1)))).take k

/-- The body of the result loop of `search` for one `(score, idx)` pair:
`index_to_id.get(str(idx))`, the `if doc_id and doc_id in self.document_store`
guard (an empty-string id is falsy in Python), the metadata post-filter
(`continue` on failure), and construction of the `VectorSearchResult`.
The source guards the `all(...)` check with `if filter_dict:`; since
`all` of an empty filter is `True`, the two conditions combine into the
single `filt.all` test used here. -/
def toResult (st : FaissState) (filt : List (String × String)) (si : Int × Nat) :
    Option VectorSearchResult :=
  match alGet st.index_to_id si.2 with
  | none => none
  | some doc_id =>
    if doc_id = "" then none
    else
      match alGet st.document_store doc_id with
      | none => none
      | some d =>
        if filt.all (fun kv => decide (alGet d.metadata kv.1 = some kv.2)) then
          some
            { id := doc_id
              content := d.content
              metadata := d.metadata
              score := si.1
              document_title := (alGet d.metadata "title").getD ""
              chunk_index := (alGet d.metadata "chunk_index").getD "0" }
        else none

/-- `FAISSVectorDB.search`.  `filt = []` models `filter_dict` being
`None` or `{}` (both falsy, hence no filtering). -/
def search (env : Env) (st : FaissState) (query : String) (top_k : Nat)
    (filt : List (String × String)) : List VectorSearchResult :=
  let q0 := env.encode query
  let q := if env.cfg.index_type = IndexType.flatIP then env.normalize q0 else q0
  (rank env.cfg.index_type st.indexVecs q top_k).filterMap (toResult st filt)

/-- The `documents` list `_rebuild_index` reconstructs from
`document_store` (`{'id': ..., 'content': ..., 'metadata': ...}`). -/
def storedToDoc (p : String × StoredDoc) : DocRecord :=
  { id := some p.1, content := some p.2.content, metadata := p.2.metadata }

/-- `FAISSVectorDB._rebuild_index`. -/
def rebuild_index (env : Env) (st : FaissState) : FaissState :=
  if st.document_store = [] then
    save_index { st with indexVecs := [] }
  else
    let documents := st.document_store.map storedToDoc
    let st1 := { st with indexVecs := [], id_to_index := [], index_to_id := [] }
    if documents = [] then st1 else (add_documents env st1 documents).2

/-- `FAISSVectorDB.delete_document`.  The guard returns `false` for an
unknown id; the three removals mirror the `del` statements (a `KeyError`
there would be caught, returning `false` with the removals already
applied); finally the index is rebuilt. -/
def delete_document (env : Env) (st : FaissState) (document_id : String) :
    Bool × FaissState :=
  match alGet st.document_store document_id with
  | none => (false, st)
  | some entry =>
    let st1 := { st with document_store := alErase st.document_store document_id }
    match alGet st1.id_to_index document_id with
    | none => (false, st1)
    | some _ =>
      let st2 := { st1 with id_to_index := alErase st1.id_to_index document_id }
      match alGet st2.index_to_id entry.faiss_index with
      | none => (false, st2)
      | some _ =>
        let st3 := { st2 with index_to_id := alErase st2.index_to_id entry.faiss_index }
        (true, rebuild_index env st3)

/-- The dict returned by `FAISSVectorDB.get_collection_stats`. -/
structure FaissStats where
  total_documents : Nat
  db_type : String
  index_type : IndexType
  dimension : Nat
  embedding_model : String
deriving DecidableEq

/-- `FAISSVectorDB.get_collection_stats`. -/
def get_collection_stats (env : Env) (st : FaissState) : FaissStats :=
  { total_documents := st.document_store.length
    db_type := "faiss"
    index_type := env.cfg.index_type
    dimension := env.cfg.dimension
    embedding_model := env.cfg.embedding_model }

/-- `FAISSVectorDB.clear_collection`: fresh index, empty dicts, save. -/
def clear_collection (st : FaissState) : Bool × FaissState :=
  (true, save_index
    { st with indexVecs := [], document_store := [], id_to_index := [], index_to_id := [] })

end FAISSVectorDB

/-! ## Derived views of the document store -/

namespace FAISSVectorDB

/-- The `id_to_index` pairs induced by a document store. -/
def storePairs (l : List (String × StoredDoc)) : List (String × Nat) :=
  l.map (fun p => (p.1, p.2.faiss_index))

/-- The `index_to_id` pairs induced by a document store. -/
def posPairs (l : List (String × StoredDoc)) : List (Nat × String) :=
  l.map (fun p => (p.2.faiss_index, p.1))

/-- The raw-index positions recorded in a document store. -/
def posKeys (l : List (String × StoredDoc)) : List Nat :=
  l.map (fun p => p.2.faiss_index)

/-- The store with its `faiss_index` fields rewritten to consecutive
positions starting at `j` (what the metadata loop of `add_documents`
assigns). -/
def reindex (j : Nat) : List (String × StoredDoc) → List (String × StoredDoc)
  | [] => []
  | (k, d) :: t =>
    (k, { content := d.content, metadata := d.metadata, faiss_index := j }) :: reindex (j + 1) t

/-- The store entry created for a (valid) input record, before position
assignment. -/
def docPair (d : DocRecord) : String × StoredDoc :=
  (d.id.getD "", { content := d.content.getD "", metadata := d.metadata, faiss_index := 0 })

/-- Store entries without their position field (id, content, metadata). -/
def stripPos (l : List (String × StoredDoc)) : List (String × String × List (String × String)) :=
  l.map (fun p => (p.1, p.2.content, p.2.metadata))

theorem alGet_storePairs (l : List (String × StoredDoc)) (k : String) :
    alGet (storePairs l) k = (alGet l k).map StoredDoc.faiss_index := by
  induction l with
  | nil => simp [storePairs, alGet]
  | cons p t ih =>
    obtain ⟨k₀, d₀⟩ := p
    by_cases hk : k₀ = k <;> simp [storePairs, alGet, hk] <;> simpa [storePairs] using ih

theorem alKeys_storePairs (l : List (String × StoredDoc)) :
    alKeys (storePairs l) = alKeys l := by
  simp [alKeys, storePairs]

theorem alKeys_posPairs (l : List (String × StoredDoc)) :
    alKeys (posPairs l) = posKeys l := by
  simp [alKeys, posPairs, posKeys]

theorem length_storePairs (l : List (String × StoredDoc)) :
    (storePairs l).length = l.length := by
  simp [storePairs]

theorem length_posPairs (l : List (String × StoredDoc)) :
    (posPairs l).length = l.length := by
  simp [posPairs]

theorem storePairs_append (l r : List (String × StoredDoc)) :
    storePairs (l ++ r) = storePairs l ++ storePairs r := by
  simp [storePairs]

theorem posPairs_append (l r : List (String × StoredDoc)) :
    posPairs (l ++ r) = posPairs l ++ posPairs r := by
  simp [posPairs]

theorem posKeys_append (l r : List (String × StoredDoc)) :
    posKeys (l ++ r) = posKeys l ++ posKeys r := by
  simp [posKeys]

theorem alGet_posPairs_of_mem {l : List (String × StoredDoc)}
    (hpos : (posKeys l).Nodup) {k : String} {d : StoredDoc} (h : (k, d) ∈ l) :
    alGet (posPairs l) d.faiss_index = some k := by
  induction l with
  | nil => simp at h
  | cons p t ih =>
    obtain ⟨k₀, d₀⟩ := p
    simp only [posKeys, List.map_cons, List.nodup_cons] at hpos
    rcases List.mem_cons.1 h with h | h
    · injection h with h1 h2
      subst h1
      subst h2
      simp [posPairs, alGet]
    · have hne : d₀.faiss_index ≠ d.faiss_index := by
        intro he
        exact hpos.1 (he ▸ List.mem_map_of_mem (fun p => p.2.faiss_index) h)
      simp only [posPairs, List.map_cons, alGet, hne, if_false]
      simpa [posPairs] using ih hpos.2 h

theorem alGet_posPairs_mem {l : List (String × StoredDoc)} {pos : Nat} {k : String}
    (h : alGet (posPairs l) pos = some k) :
    ∃ d, (k, d) ∈ l ∧ d.faiss_index = pos := by
  induction l with
  | nil => simp [posPairs, alGet] at h
  | cons p t ih =>
    obtain ⟨k₀, d₀⟩ := p
    by_cases hp : d₀.faiss_index = pos
    · subst hp
      simp only [posPairs, List.map_cons, alGet, if_pos rfl] at h
      injection h with h
      subst h
      exact ⟨d₀, List.mem_cons_self _ _, rfl⟩
    · simp only [posPairs, List.map_cons, alGet, hp, if_false] at h
      obtain ⟨d, hd, hdp⟩ := ih (by simpa [posPairs] using h)
      exact ⟨d, List.mem_cons_of_mem _ hd, hdp⟩

theorem alErase_storePairs (l : List (String × StoredDoc)) (k : String) :
    alErase (storePairs l) k = storePairs (alErase l k) := by
  induction l with
  | nil => simp [storePairs, alErase]
  | cons p t ih =>
    obtain ⟨k₀, d₀⟩ := p
    by_cases hk : k₀ = k <;> simp [storePairs, alErase, hk] <;> simpa [storePairs] using ih

theorem alErase_posPairs {l : List (String × StoredDoc)}
    (hkeys : (alKeys l).Nodup) (hpos : (posKeys l).Nodup)
    {k : String} {d : StoredDoc} (h : alGet l k = some d) :
    alErase (posPairs l) d.faiss_index = posPairs (alErase l k) := by
  induction l with
  | nil => simp [alGet] at h
  | cons p t ih =>
    obtain ⟨k₀, d₀⟩ := p
    simp only [alKeys, posKeys, List.map_cons, List.nodup_cons] at hkeys hpos
    by_cases hk : k₀ = k
    · subst hk
      simp only [alGet, if_pos rfl] at h
      injection h with h
      subst h
      simp [posPairs, alErase]
    · simp only [alGet, hk, if_false] at h
      have hne : d₀.faiss_index ≠ d.faiss_index := by
        intro he
        have : d.faiss_index ∈ posKeys t := List.mem_map_of_mem _ (mem_of_alGet h)
        exact hpos.1 (he ▸ this)
      simp only [posPairs, List.map_cons, alErase, hne, hk, if_false]
      have := ih hkeys.2 hpos.2 h
      simp only [posPairs] at this
      simp [this, posPairs]

theorem alKeys_reindex (j : Nat) (l : List (String × StoredDoc)) :
    alKeys (reindex j l) = alKeys l := by
  induction l generalizing j with
  | nil => simp [reindex]
  | cons p t ih =>
    obtain ⟨k₀, d₀⟩ := p
    simp [reindex, alKeys] at *
    exact ih _

theorem posKeys_reindex (j : Nat) (l : List (String × StoredDoc)) :
    posKeys (reindex j l) = List.range' j l.length := by
  induction l generalizing j with
  | nil => simp [reindex, posKeys]
  | cons p t ih =>
    obtain ⟨k₀, d₀⟩ := p
    simp [reindex, posKeys, List.range'] at *
    exact ih _

theorem length_reindex (j : Nat) (l : List (String × StoredDoc)) :
    (reindex j l).length = l.length := by
  induction l generalizing j with
  | nil => simp [reindex]
  | cons p t ih =>
    obtain ⟨k₀, d₀⟩ := p
    simp [reindex, ih]

theorem stripPos_reindex (j : Nat) (l : List (String × StoredDoc)) :
    stripPos (reindex j l) = stripPos l := by
  induction l generalizing j with
  | nil => simp [reindex]
  | cons p t ih =>
    obtain ⟨k₀, d₀⟩ := p
    simp [reindex, stripPos] at *
    exact ih _

theorem contents_reindex (j : Nat) (l : List (String × StoredDoc)) :
    (reindex j l).map (fun p => p.2.content) = l.map (fun p => p.2.content) := by
  induction l generalizing j with
  | nil => simp [reindex]
  | cons p t ih =>
    obtain ⟨k₀, d₀⟩ := p
    simp [reindex] at *
    exact ih _

theorem alGet_reindex_isSome (j : Nat) (l : List (String × StoredDoc)) (k : String) :
    (alGet (reindex j l) k).isSome = (alGet l k).isSome := by
  induction l generalizing j with
  | nil => simp [reindex]
  | cons p t ih =>
    obtain ⟨k₀, d₀⟩ := p
    by_cases hk : k₀ = k <;> simp [reindex, alGet, hk] <;> exact ih _

theorem pos_lt_of_mem_reindex {j : Nat} {l : List (String × StoredDoc)}
    {p : String × StoredDoc} (h : p ∈ reindex j l) :
    j ≤ p.2.faiss_index ∧ p.2.faiss_index < j + l.length := by
  have : p.2.faiss_index ∈ posKeys (reindex j l) := List.mem_map_of_mem _ h
  rw [posKeys_reindex] at this
  obtain ⟨i, hi, he⟩ := List.mem_range'.1 this
  omega

end FAISSVectorDB

/-! ## The bookkeeping invariant of `FAISSVectorDB` -/

namespace FAISSVectorDB

/-- The consistency invariant of the `FAISSVectorDB` bookkeeping state:
`id_to_index` and `index_to_id` are exactly the two projections of the
document store, ids and raw positions are duplicate-free, and every
recorded position points into the raw index. -/
abbrev Inv (st : FaissState) : Prop :=
  st.id_to_index = storePairs st.document_store ∧
  st.index_to_id = posPairs st.document_store ∧
  (alKeys st.document_store).Nodup ∧
  (posKeys st.document_store).Nodup ∧
  ∀ p ∈ st.document_store, p.2.faiss_index < st.indexVecs.length

theorem inv_empty : Inv emptyFaissState := by
  refine ⟨rfl, rfl, ?_, ?_, ?_⟩ <;> simp [emptyFaissState, alKeys, posKeys, storePairs, posPairs]

theorem alGet_singleton_ne {K V : Type} [DecidableEq K] {k k' : K} (v : V)
    (h : k ≠ k') : alGet [(k, v)] k' = none := by
  simp [alGet, h]

/-- Closed form of the metadata loop when every record has an id, the
batch ids are duplicate-free, and none of them is in any of the three
dicts yet: each record is appended, at consecutive positions. -/
theorem addLoop_fresh (start : Nat) :
    ∀ (docs : List DocRecord) (st : FaissState) (i : Nat),
    (∀ d ∈ docs, d.id.isSome = true) →
    (docs.map (fun d => d.id.getD "")).Nodup →
    (∀ d ∈ docs, alGet st.document_store (d.id.getD "") = none) →
    (∀ d ∈ docs, alGet st.id_to_index (d.id.getD "") = none) →
    (∀ j, start + i ≤ j → alGet st.index_to_id j = none) →
    addLoop start st i docs =
      (true,
        { st with
          document_store := st.document_store ++ reindex (start + i) (docs.map docPair),
          id_to_index := st.id_to_index ++ storePairs (reindex (start + i) (docs.map docPair)),
          index_to_id := st.index_to_id ++ posPairs (reindex (start + i) (docs.map docPair)) })
  | [], st, i, _, _, _, _, _ => by
    simp [addLoop, reindex, storePairs, posPairs]
  | d :: ds, st, i, h1, h2, h3, h4, h5 => by
    have hid : d.id.isSome = true := h1 d (List.mem_cons_self _ _)
    obtain ⟨did, hdid⟩ := Option.isSome_iff_exists.1 hid
    have hgd : d.id.getD "" = did := by simp [hdid]
    simp only [List.map_cons, List.nodup_cons] at h2
    have hstep :
        addLoop start st i (d :: ds) =
        addLoop start
          { st with
            document_store := st.document_store ++
              [(did, { content := d.content.getD "", metadata := d.metadata, faiss_index := start + i })],
            id_to_index := st.id_to_index ++ [(did, start + i)],
            index_to_id := st.index_to_id ++ [(start + i, did)] }
          (i + 1) ds := by
      simp only [addLoop, hdid]
      rw [alSet_not_mem (hgd ▸ h3 d (List.mem_cons_self _ _)),
        alSet_not_mem (hgd ▸ h4 d (List.mem_cons_self _ _)),
        alSet_not_mem (h5 (start + i) (le_refl _))]
    rw [hstep]
    have ih := addLoop_fresh start ds
      { st with
        document_store := st.document_store ++
          [(did, { content := d.content.getD "", metadata := d.metadata, faiss_index := start + i })],
        id_to_index := st.id_to_index ++ [(did, start + i)],
        index_to_id := st.index_to_id ++ [(start + i, did)] }
      (i + 1)
      (fun d' hd' => h1 d' (List.mem_cons_of_mem _ hd'))
      h2.2
      (fun d' hd' => by
        have hne : d.id.getD "" ≠ d'.id.getD "" := by
          intro he
          exact h2.1 (he ▸ List.mem_map_of_mem _ hd')
        rw [alGet_append_none (h3 d' (List.mem_cons_of_mem _ hd'))]
        exact alGet_singleton_ne _ (hgd ▸ hne))
      (fun d' hd' => by
        have hne : d.id.getD "" ≠ d'.id.getD "" := by
          intro he
          exact h2.1 (he ▸ List.mem_map_of_mem _ hd')
        rw [alGet_append_none (h4 d' (List.mem_cons_of_mem _ hd'))]
        exact alGet_singleton_ne _ (hgd ▸ hne))
      (fun j hj => by
        rw [alGet_append_none (h5 j (by omega))]
        exact alGet_singleton_ne _ (by omega))
    rw [ih]
    simp only [List.map_cons, reindex, docPair, hgd, hdid, Option.getD_some, storePairs,
      posPairs, List.append_assoc, List.singleton_append]
    constructor

/-- Closed form of the metadata loop of a `_rebuild_index` call: the
documents are exactly the store's own records, so each `alSet` updates
the matching store entry in place, rewriting its position. -/
theorem addLoop_update (start : Nat) :
    ∀ (s pre : List (String × StoredDoc)) (st : FaissState) (i : Nat),
    st.document_store = pre ++ s →
    (alKeys (pre ++ s)).Nodup →
    (∀ p ∈ s, alGet st.id_to_index p.1 = none) →
    (∀ j, start + i ≤ j → alGet st.index_to_id j = none) →
    addLoop start st i (s.map storedToDoc) =
      (true,
        { st with
          document_store := pre ++ reindex (start + i) s,
          id_to_index := st.id_to_index ++ storePairs (reindex (start + i) s),
          index_to_id := st.index_to_id ++ posPairs (reindex (start + i) s) })
  | [], pre, st, i, hst, _, _, _ => by
    simp [addLoop, reindex, storePairs, posPairs, ← hst]
  | (k, d) :: t, pre, st, i, hst, hnd, h3, h4 => by
    have hkeys : alKeys (pre ++ (k, d) :: t) = alKeys pre ++ k :: alKeys t := by
      simp [alKeys]
    have hknotpre : k ∉ alKeys pre := by
      rw [hkeys] at hnd
      have := (List.nodup_append.1 hnd).2.2
      intro hk
      exact this hk (List.mem_cons_self _ _)
    have hknott : k ∉ alKeys t := by
      rw [hkeys] at hnd
      have := (List.nodup_append.1 hnd).2.1
      exact (List.nodup_cons.1 this).1
    have hstep :
        addLoop start st i (((k, d) :: t).map storedToDoc) =
        addLoop start
          { st with
            document_store := pre ++
              (k, { content := d.content, metadata := d.metadata, faiss_index := start + i }) :: t,
            id_to_index := st.id_to_index ++ [(k, start + i)],
            index_to_id := st.index_to_id ++ [(start + i, k)] }
          (i + 1) (t.map storedToDoc) := by
      simp only [List.map_cons, addLoop, storedToDoc, Option.getD_some]
      rw [hst, alSet_append_mid hknotpre,
        alSet_not_mem (h3 (k, d) (List.mem_cons_self _ _)),
        alSet_not_mem (h4 (start + i) (le_refl _))]
    rw [hstep]
    have ih := addLoop_update start t (pre ++
        [(k, { content := d.content, metadata := d.metadata, faiss_index := start + i })])
      { st with
        document_store := pre ++
          (k, { content := d.content, metadata := d.metadata, faiss_index := start + i }) :: t,
        id_to_index := st.id_to_index ++ [(k, start + i)],
        index_to_id := st.index_to_id ++ [(start + i, k)] }
      (i + 1)
      (by simp)
      (by
        have : alKeys ((pre ++
            [(k, { content := d.content, metadata := d.metadata, faiss_index := start + i : StoredDoc})]) ++ t)
            = alKeys pre ++ k :: alKeys t := by
          simp [alKeys]
        rw [this, ← hkeys]
        exact hnd)
      (fun p hp => by
        have hne : k ≠ p.1 := by
          intro he
          exact hknott (he ▸ List.mem_map_of_mem Prod.fst hp)
        rw [alGet_append_none (h3 p (List.mem_cons_of_mem _ hp))]
        exact alGet_singleton_ne _ hne)
      (fun j hj => by
        rw [alGet_append_none (h4 j (by omega))]
        exact alGet_singleton_ne _ (by omega))
    rw [ih]
    simp only [reindex, storePairs, posPairs, List.map_cons, List.append_assoc,
      List.singleton_append, List.cons_append]
    constructor

end FAISSVectorDB

namespace FAISSVectorDB

theorem getContents_of_valid :
    ∀ {docs : List DocRecord}, (∀ d ∈ docs, d.content.isSome = true) →
    getContents docs = some (docs.map (fun d => d.content.getD ""))
  | [], _ => rfl
  | d :: ds, h => by
    have hc : d.content.isSome = true := h d (List.mem_cons_self _ _)
    obtain ⟨c, hc⟩ := Option.isSome_iff_exists.1 hc
    simp only [getContents, hc, List.map_cons]
    rw [getContents_of_valid (fun d' hd' => h d' (List.mem_cons_of_mem _ hd'))]
    simp [hc]

theorem getContents_none :
    ∀ {docs : List DocRecord} {d : DocRecord}, d ∈ docs → d.content = none →
    getContents docs = none
  | [], _, h, _ => by simp at h
  | d' :: ds, d, h, hc => by
    rcases List.mem_cons.1 h with h | h
    · subst h
      simp [getContents, hc]
    · cases hd' : d'.content with
      | none => simp [getContents, hd']
      | some c => simp [getContents, hd', getContents_none h hc]

theorem getContents_map (l : List (String × StoredDoc)) :
    getContents (l.map storedToDoc) = some (l.map (fun p => p.2.content)) := by
  induction l with
  | nil => rfl
  | cons p t ih =>
    obtain ⟨k, d⟩ := p
    simp [getContents, storedToDoc, ih]

theorem length_embedBatch (env : Env) (texts : List String) :
    (embedBatch env texts).length = texts.length := by
  unfold embedBatch
  by_cases h : env.cfg.index_type = IndexType.flatIP <;> simp [h]

theorem addLoop_indexVecs (start : Nat) :
    ∀ (docs : List DocRecord) (st : FaissState) (i : Nat),
    (addLoop start st i docs).2.indexVecs = st.indexVecs
  | [], st, i => rfl
  | d :: ds, st, i => by
    cases hdid : d.id with
    | none => simp [addLoop, hdid]
    | some did => simp [addLoop, hdid, addLoop_indexVecs start ds]

theorem addLoop_log (start : Nat) :
    ∀ (docs : List DocRecord) (st : FaissState) (i : Nat),
    (addLoop start st i docs).2.log = st.log
  | [], st, i => rfl
  | d :: ds, st, i => by
    cases hdid : d.id with
    | none => simp [addLoop, hdid]
    | some did => simp [addLoop, hdid, addLoop_log start ds]

theorem addLoop_true_of_ids (start : Nat) :
    ∀ (docs : List DocRecord) (st : FaissState) (i : Nat),
    (∀ d ∈ docs, d.id.isSome = true) →
    (addLoop start st i docs).1 = true
  | [], st, i, _ => rfl
  | d :: ds, st, i, h => by
    have hid := h d (List.mem_cons_self _ _)
    obtain ⟨did, hdid⟩ := Option.isSome_iff_exists.1 hid
    simp only [addLoop, hdid]
    exact addLoop_true_of_ids start ds _ _ (fun d' hd' => h d' (List.mem_cons_of_mem _ hd'))

theorem addLoop_contains_old (start : Nat) :
    ∀ (docs : List DocRecord) (st : FaissState) (i : Nat) (k : String),
    alContains st.document_store k = true →
    alContains (addLoop start st i docs).2.document_store k = true
  | [], st, i, k, h => h
  | d :: ds, st, i, k, h => by
    cases hdid : d.id with
    | none => simpa [addLoop, hdid] using h
    | some did =>
      simp only [addLoop, hdid]
      exact addLoop_contains_old start ds _ _ _ (alContains_set_of _ _ _ h)

theorem addLoop_contains_new (start : Nat) :
    ∀ (docs : List DocRecord) (st : FaissState) (i : Nat),
    (∀ d ∈ docs, d.id.isSome = true) →
    ∀ d ∈ docs, alContains (addLoop start st i docs).2.document_store (d.id.getD "") = true
  | [], _, _, _, _, h => by simp at h
  | d' :: ds, st, i, hids, d, hd => by
    have hid := hids d' (List.mem_cons_self _ _)
    obtain ⟨did, hdid⟩ := Option.isSome_iff_exists.1 hid
    simp only [addLoop, hdid]
    rcases List.mem_cons.1 hd with h | h
    · subst h
      refine addLoop_contains_old start ds _ _ _ ?_
      simp only [hdid, Option.getD_some]
      exact alContains_set _ _ _
    · exact addLoop_contains_new start ds _ _
        (fun d'' hd'' => hids d'' (List.mem_cons_of_mem _ hd'')) d h

/-- Closed form of a successful `add_documents` call on a batch of
well-formed records with fresh, duplicate-free ids, starting from a
state satisfying the invariant. -/
theorem add_documents_fresh (env : Env) (st : FaissState) (docs : List DocRecord)
    (h1 : ∀ d ∈ docs, d.id.isSome = true)
    (h1c : ∀ d ∈ docs, d.content.isSome = true)
    (h2 : (docs.map (fun d => d.id.getD "")).Nodup)
    (h3 : ∀ d ∈ docs, alGet st.document_store (d.id.getD "") = none)
    (hInv : Inv st) :
    add_documents env st docs =
      (true,
        { st with
          indexVecs := st.indexVecs ++ embedBatch env (docs.map (fun d => d.content.getD "")),
          document_store := st.document_store ++
            reindex st.indexVecs.length (docs.map docPair),
          id_to_index := st.id_to_index ++
            storePairs (reindex st.indexVecs.length (docs.map docPair)),
          index_to_id := st.index_to_id ++
            posPairs (reindex st.indexVecs.length (docs.map docPair)),
          log := st.log ++ [FsOp.writeIndexFile, FsOp.writeMetadataFile] }) := by
  obtain ⟨hA, hB, hC, hD, hE⟩ := hInv
  unfold add_documents
  rw [getContents_of_valid h1c]
  have h4 : ∀ d ∈ docs, alGet st.id_to_index (d.id.getD "") = none := by
    intro d hd
    rw [hA, alGet_storePairs, h3 d hd]
    rfl
  have h5 : ∀ j, st.indexVecs.length + 0 ≤ j → alGet st.index_to_id j = none := by
    intro j hj
    rw [hB, alGet_eq_none_iff, alKeys_posPairs]
    intro hmem
    obtain ⟨p, hp, hpe⟩ := List.mem_map.1 hmem
    have := hE p hp
    omega
  have hloop := addLoop_fresh st.indexVecs.length docs
    { st with indexVecs := st.indexVecs ++ embedBatch env (docs.map (fun d => d.content.getD "")) }
    0 h1 h2 h3 h4 h5
  simp only [hloop, save_index, Nat.add_zero]

/-- Closed form of `_rebuild_index` on a state whose mappings are the
two projections of its (duplicate-free) document store — the state
`delete_document` hands to it. -/
theorem rebuild_index_closed (env : Env) (st : FaissState)
    (hA : st.id_to_index = storePairs st.document_store)
    (hB : st.index_to_id = posPairs st.document_store)
    (hC : (alKeys st.document_store).Nodup) :
    rebuild_index env st =
      { st with
        indexVecs := embedBatch env (st.document_store.map (fun p => p.2.content)),
        document_store := reindex 0 st.document_store,
        id_to_index := storePairs (reindex 0 st.document_store),
        index_to_id := posPairs (reindex 0 st.document_store),
        log := st.log ++ [FsOp.writeIndexFile, FsOp.writeMetadataFile] } := by
  unfold rebuild_index
  by_cases hemp : st.document_store = []
  · rw [if_pos hemp]
    simp [save_index, hemp, reindex, storePairs, posPairs, embedBatch, hA, hB]
  · rw [if_neg hemp]
    have hmapne : st.document_store.map storedToDoc ≠ [] := by
      simpa using hemp
    rw [if_neg hmapne]
    unfold add_documents
    rw [getContents_map]
    have hmapback :
        (st.document_store.map storedToDoc).map (fun d => d.content.getD "") =
        st.document_store.map (fun p => p.2.content) := by
      simp [storedToDoc]
    have hloop := addLoop_update 0 st.document_store []
      { st with
        indexVecs := [] ++ embedBatch env ((st.document_store.map storedToDoc).map (fun d => d.content.getD "")),
        id_to_index := [], index_to_id := [] }
      0 (by simp) (by simpa using hC)
      (by intro p hp; rfl)
      (by intro j hj; rfl)
    simp only [List.length_nil, List.nil_append, hmapback] at hloop ⊢
    simp only [Nat.add_zero] at hloop
    rw [hloop]
    simp [save_index]

end FAISSVectorDB

namespace FAISSVectorDB

/-- Closed form of a successful `delete_document` on an invariant
state: the entry is removed, all remaining documents are re-embedded in
stored order from position `0`, and both mappings are rebuilt. -/
theorem delete_document_closed (env : Env) (st : FaissState) (document_id : String)
    (entry : StoredDoc) (hInv : Inv st)
    (h : alGet st.document_store document_id = some entry) :
    delete_document env st document_id =
      (true,
        { indexVecs := embedBatch env
            ((alErase st.document_store document_id).map (fun p => p.2.content)),
          document_store := reindex 0 (alErase st.document_store document_id),
          id_to_index := storePairs (reindex 0 (alErase st.document_store document_id)),
          index_to_id := posPairs (reindex 0 (alErase st.document_store document_id)),
          log := st.log ++ [FsOp.writeIndexFile, FsOp.writeMetadataFile] }) := by
  obtain ⟨hA, hB, hC, hD, hE⟩ := hInv
  have hidx : alGet st.id_to_index document_id = some entry.faiss_index := by
    rw [hA, alGet_storePairs, h]
    rfl
  have hpos : alGet st.index_to_id entry.faiss_index = some document_id := by
    rw [hB]
    exact alGet_posPairs_of_mem hD (mem_of_alGet h)
  unfold delete_document
  rw [h]
  simp only [hidx, hpos]
  have hres := rebuild_index_closed env
    { st with
      document_store := alErase st.document_store document_id,
      id_to_index := alErase st.id_to_index document_id,
      index_to_id := alErase st.index_to_id entry.faiss_index }
    (by
      simp only
      rw [hA, alErase_storePairs])
    (by
      simp only
      rw [hB, alErase_posPairs hC hD h])
    (by
      simp only
      have : (alErase st.document_store document_id).Sublist st.document_store :=
        alErase_sublist _ _
      exact ((this.map Prod.fst).nodup hC : _))
  rw [hres]

/-- `Inv` is preserved by a fresh, well-formed `add_documents` call. -/
theorem inv_add_documents (env : Env) (st : FaissState) (docs : List DocRecord)
    (h1 : ∀ d ∈ docs, d.id.isSome = true)
    (h1c : ∀ d ∈ docs, d.content.isSome = true)
    (h2 : (docs.map (fun d => d.id.getD "")).Nodup)
    (h3 : ∀ d ∈ docs, alGet st.document_store (d.id.getD "") = none)
    (hInv : Inv st) :
    Inv (add_documents env st docs).2 := by
  rw [add_documents_fresh env st docs h1 h1c h2 h3 hInv]
  obtain ⟨hA, hB, hC, hD, hE⟩ := hInv
  refine ⟨?_, ?_, ?_, ?_, ?_⟩
  · simp only
    rw [hA, storePairs_append]
  · simp only
    rw [hB, posPairs_append]
  · simp only [alKeys, List.map_append, List.nodup_append]
    refine ⟨hC, ?_, ?_⟩
    · have h6 : alKeys (reindex st.indexVecs.length (docs.map docPair)) =
          docs.map (fun d => d.id.getD "") := by
        rw [alKeys_reindex]
        simp [alKeys, docPair]
      have h7 : (alKeys (reindex st.indexVecs.length (docs.map docPair))).Nodup := by
        rw [h6]
        exact h2
      simpa [alKeys] using h7
    · intro k hk hk'
      have hk2 : k ∈ alKeys (reindex st.indexVecs.length (docs.map docPair)) := by
        simpa [alKeys] using hk'
      rw [alKeys_reindex] at hk2
      simp only [alKeys, List.map_map, List.mem_map] at hk2
      obtain ⟨d, hd, hde⟩ := hk2
      have := h3 d hd
      rw [alGet_eq_none_iff] at this
      apply this
      have : (Prod.fst ∘ docPair) d = d.id.getD "" := by simp [docPair]
      rw [this] at hde
      simpa [alKeys, hde] using hk
  · simp only [posKeys, List.map_append, List.nodup_append]
    refine ⟨hD, ?_, ?_⟩
    · have h6 : posKeys (reindex st.indexVecs.length (docs.map docPair)) =
          List.range' st.indexVecs.length docs.length := by
        rw [posKeys_reindex]
        simp
      have h7 : (posKeys (reindex st.indexVecs.length (docs.map docPair))).Nodup := by
        rw [h6]
        exact List.nodup_range' _ _
      simpa [posKeys] using h7
    · intro x hx hx'
      have hx2 : x ∈ posKeys (reindex st.indexVecs.length (docs.map docPair)) := by
        simpa [posKeys] using hx'
      rw [posKeys_reindex] at hx2
      obtain ⟨i, hi, he⟩ := List.mem_range'.1 hx2
      have hx3 : x ∈ posKeys st.document_store := by simpa [posKeys] using hx
      obtain ⟨p, hp, hpe⟩ := List.mem_map.1 hx3
      have := hE p hp
      omega
  · intro p hp
    simp only [List.length_append, length_embedBatch, List.length_map]
    rcases List.mem_append.1 hp with hp | hp
    · have := hE p hp
      omega
    · have := pos_lt_of_mem_reindex hp
      simp only [List.length_map] at this
      omega

/-- `Inv` is preserved by `delete_document` (known or unknown id). -/
theorem inv_delete_document (env : Env) (st : FaissState) (document_id : String)
    (hInv : Inv st) : Inv (delete_document env st document_id).2 := by
  cases h : alGet st.document_store document_id with
  | none =>
    unfold delete_document
    rw [h]
    exact hInv
  | some entry =>
    rw [delete_document_closed env st document_id entry hInv h]
    obtain ⟨hA, hB, hC, hD, hE⟩ := hInv
    have hsub : (alErase st.document_store document_id).Sublist st.document_store :=
      alErase_sublist _ _
    refine ⟨rfl, rfl, ?_, ?_, ?_⟩
    · simp only
      rw [alKeys_reindex]
      exact ((hsub.map Prod.fst).nodup hC : _)
    · simp only
      rw [posKeys_reindex]
      exact List.nodup_range' _ _
    · intro p hp
      simp only [length_embedBatch, List.length_map]
      have := pos_lt_of_mem_reindex hp
      omega

end FAISSVectorDB

/-! ## Sequences of mutating calls on a `FAISSVectorDB` -/

namespace FAISSVectorDB

/-- One mutating call of the claim "any sequence of
`add_documents`/`delete_document` calls". -/
inductive DbOp
  | add (docs : List DocRecord)
  | del (document_id : String)

/-- Apply one call to the state (the returned `bool` is dropped, as a
caller issuing a sequence of calls would). -/
def applyOp (env : Env) (st : FaissState) : DbOp → FaissState
  | .add docs => (add_documents env st docs).2
  | .del document_id => (delete_document env st document_id).2

/-- Run a sequence of calls. -/
def runOps (env : Env) : FaissState → List DbOp → FaissState
  | st, [] => st
  | st, op :: ops => runOps env (applyOp env st op) ops

/-- A well-formed batch for `add_documents`: every record carries an id
and a content, ids are pairwise distinct and not yet present. -/
abbrev ValidBatch (st : FaissState) (docs : List DocRecord) : Prop :=
  (∀ d ∈ docs, d.id.isSome = true ∧ d.content.isSome = true) ∧
  (docs.map (fun d => d.id.getD "")).Nodup ∧
  ∀ d ∈ docs, alGet st.document_store (d.id.getD "") = none

/-- Precondition of one call in a good sequence: additions are
well-formed with fresh ids; deletions are unrestricted. -/
def goodOp (st : FaissState) : DbOp → Prop
  | .add docs => ValidBatch st docs
  | .del _ => True

instance goodOpDecidable (st : FaissState) : (op : DbOp) → Decidable (goodOp st op)
  | .add docs => (inferInstance : Decidable (ValidBatch st docs))
  | .del _ => .isTrue trivial

/-- Every call of the sequence satisfies its precondition in the state
it is applied to. -/
def goodRun (env : Env) : FaissState → List DbOp → Prop
  | _, [] => True
  | st, op :: ops => goodOp st op ∧ goodRun env (applyOp env st op) ops

instance goodRunDecidable (env : Env) : (st : FaissState) → (ops : List DbOp) →
    Decidable (goodRun env st ops)
  | _, [] => .isTrue trivial
  | st, op :: ops =>
    have : Decidable (goodRun env (applyOp env st op) ops) :=
      goodRunDecidable env _ ops
    (inferInstance : Decidable (goodOp st op ∧ goodRun env (applyOp env st op) ops))

theorem inv_applyOp (env : Env) (st : FaissState) (op : DbOp)
    (hInv : Inv st) (hgood : goodOp st op) : Inv (applyOp env st op) := by
  cases op with
  | add docs =>
    obtain ⟨hwf, hnd, hfresh⟩ := hgood
    exact inv_add_documents env st docs (fun d hd => (hwf d hd).1) (fun d hd => (hwf d hd).2)
      hnd hfresh hInv
  | del document_id => exact inv_delete_document env st document_id hInv

theorem inv_runOps (env : Env) :
    ∀ (ops : List DbOp) (st : FaissState), Inv st → goodRun env st ops →
    Inv (runOps env st ops)
  | [], st, hInv, _ => hInv
  | op :: ops, st, hInv, hgood =>
    inv_runOps env ops _ (inv_applyOp env st op hInv hgood.1) hgood.2

/-- What `Inv` gives observationally: the two mappings are mutually
inverse and each has the size of the document store. -/
theorem inv_bijection {st : FaissState} (hInv : Inv st) :
    st.id_to_index.length = st.document_store.length ∧
    st.index_to_id.length = st.document_store.length ∧
    ∀ (document_id : String) (pos : Nat),
      alGet st.id_to_index document_id = some pos ↔
      alGet st.index_to_id pos = some document_id := by
  obtain ⟨hA, hB, hC, hD, _⟩ := hInv
  refine ⟨by rw [hA, length_storePairs], by rw [hB, length_posPairs], ?_⟩
  intro document_id pos
  constructor
  · intro h
    rw [hA, alGet_storePairs] at h
    cases hg : alGet st.document_store document_id with
    | none => rw [hg] at h; simp at h
    | some d =>
      rw [hg] at h
      simp only [Option.map_some'] at h
      injection h with h
      rw [hB, ← h]
      exact alGet_posPairs_of_mem hD (mem_of_alGet hg)
  · intro h
    rw [hB] at h
    obtain ⟨d, hd, hdp⟩ := alGet_posPairs_mem h
    rw [hA, alGet_storePairs, alGet_of_mem hC hd]
    simp [hdp]

end FAISSVectorDB

namespace FAISSVectorDB

/-- The relation in which `search` results are ordered, per index type:
for `IndexFlatL2` (and HNSW) ascending scores — raw (squared) distances,
lower first — and for `IndexFlatIP` descending scores. -/
def scoreRel (t : IndexType) : Int → Int → Prop :=
  match t with
  | .flatL2 => fun a b => a ≤ b
  | .hnsw => fun a b => a ≤ b
  | _ => fun a b => b ≤ a

theorem rankRel_eq_scoreRel (t : IndexType) (a b : Int × Nat) :
    rankRel t a b ↔ scoreRel t a.1 b.1 := by
  cases t <;> exact Iff.rfl

/-- Everything a produced search result satisfies, extracted from the
result-loop body. -/
theorem toResult_elim {st : FaissState} {filt : List (String × String)}
    {si : Int × Nat} {r : VectorSearchResult}
    (h : toResult st filt si = some r) :
    ∃ d, alGet st.index_to_id si.2 = some r.id ∧ r.id ≠ "" ∧
      alGet st.document_store r.id = some d ∧
      r.content = d.content ∧ r.metadata = d.metadata ∧ r.score = si.1 ∧
      ∀ kv ∈ filt, alGet d.metadata kv.1 = some kv.2 := by
  unfold toResult at h
  cases hg : alGet st.index_to_id si.2 with
  | none => rw [hg] at h; simp at h
  | some doc_id =>
    rw [hg] at h
    dsimp only at h
    by_cases he : doc_id = ""
    · simp [he] at h
    · rw [if_neg he] at h
      cases hd : alGet st.document_store doc_id with
      | none => rw [hd] at h; simp at h
      | some d =>
        rw [hd] at h
        dsimp only at h
        by_cases hf : filt.all (fun kv => decide (alGet d.metadata kv.1 = some kv.2)) = true
        · rw [if_pos hf] at h
          injection h with h
          subst h
          refine ⟨d, rfl, he, hd, rfl, rfl, rfl, ?_⟩
          intro kv hkv
          exact of_decide_eq_true (List.all_eq_true.1 hf kv hkv)
        · rw [if_neg hf] at h
          simp at h

theorem rank_pairwise (t : IndexType) (vecs : List Vec) (q : Vec) (k : Nat) :
    (rank t vecs q k).Pairwise (rankRel t) := by
  unfold rank
  exact List.Pairwise.sublist (List.take_sublist _ _) (List.sorted_insertionSort _ _)

theorem length_rank_le (t : IndexType) (vecs : List Vec) (q : Vec) (k : Nat) :
    (rank t vecs q k).length ≤ k := by
  unfold rank
  exact List.length_take_le _ _

/-- Every result of `FAISSVectorDB.search` refers to a live document of
the store, with the stored content and metadata, and satisfies every
pair of the metadata filter. -/
theorem search_result_live {env : Env} {st : FaissState} {query : String}
    {top_k : Nat} {filt : List (String × String)} {r : VectorSearchResult}
    (h : r ∈ search env st query top_k filt) :
    ∃ d, alGet st.document_store r.id = some d ∧
      r.content = d.content ∧ r.metadata = d.metadata ∧ r.id ≠ "" ∧
      ∀ kv ∈ filt, alGet d.metadata kv.1 = some kv.2 := by
  simp only [search] at h
  obtain ⟨si, _, hsi⟩ := List.mem_filterMap.1 h
  obtain ⟨d, _, hne, hd, hc, hm, _, hfilt⟩ := toResult_elim hsi
  exact ⟨d, hd, hc, hm, hne, hfilt⟩

theorem length_search_le (env : Env) (st : FaissState) (query : String)
    (top_k : Nat) (filt : List (String × String)) :
    (search env st query top_k filt).length ≤ top_k := by
  simp only [search]
  exact le_trans (List.length_filterMap_le _ _) (length_rank_le _ _ _ _)

/-- The scores of a `search` result list are ordered by the index
type's comparison (ascending raw distance for L2, descending inner
product for IP). -/
theorem search_scores_pairwise (env : Env) (st : FaissState) (query : String)
    (top_k : Nat) (filt : List (String × String)) :
    ((search env st query top_k filt).map VectorSearchResult.score).Pairwise
      (scoreRel env.cfg.index_type) := by
  simp only [search]
  rw [List.pairwise_map, List.pairwise_filterMap]
  refine (rank_pairwise _ _ _ _).imp ?_
  intro a b hab r hr r' hr'
  obtain ⟨da, _, _, _, _, _, hsa, _⟩ := toResult_elim hr
  obtain ⟨db, _, _, _, _, _, hsb, _⟩ := toResult_elim hr'
  rw [hsa, hsb]
  exact (rankRel_eq_scoreRel _ a b).1 hab

end FAISSVectorDB

/-! ## `ChromaVectorDB` (the ManagedStore adapter)

The external engine (`chromadb`) is not part of this repository; its
primitives are modelled by their documented semantics: `collection.delete`
removes matching embeddings and succeeds silently for unknown ids,
`client.delete_collection` raises for a missing collection name,
`client.create_collection` registers a fresh empty collection, and
`collection.query` returns parallel result lists ordered by ascending
distance.  The adapter code of `ChromaVectorDB` (what `src` contains)
is translated around them. -/

/-- One record held by the external engine's collection. -/
structure ChromaEntry where
  id : String
  content : String
  metadata : List (String × String)
  embedding : Vec
deriving DecidableEq

/-- State visible to a `ChromaVectorDB` instance: the client's named
collections and the name this instance is bound to. -/
structure ChromaState where
  collections : List (String × List ChromaEntry)
  collection_name : String
deriving DecidableEq

namespace ChromaVectorDB

/-- The entries of the bound collection. -/
def boundEntries (st : ChromaState) : List ChromaEntry :=
  (alGet st.collections st.collection_name).getD []

/-- `ChromaVectorDB.delete_document`: `self.collection.delete(ids=[document_id])`
then `return True`.  The engine removes matching entries and does not
raise for an unknown id, so the method returns `True` without ever
checking existence. -/
def delete_document (st : ChromaState) (document_id : String) : Bool × ChromaState :=
  (true,
    { st with
      collections := alSet st.collections st.collection_name
        ((boundEntries st).filter (fun e => e.id ≠ document_id)) })

/-- `self.collection.count()`, the `total_documents` field of
`ChromaVectorDB.get_collection_stats`. -/
def chroma_count (st : ChromaState) : Nat :=
  (boundEntries st).length

/-- `ChromaVectorDB.clear_collection`: `delete_collection` (raises for a
missing name — caught, returning `False`) followed by
`create_collection`, then `return True`. -/
def clear_collection (st : ChromaState) : Bool × ChromaState :=
  if (alGet st.collections st.collection_name).isSome then
    (true,
      { st with
        collections := alSet (alErase st.collections st.collection_name)
          st.collection_name [] })
  else
    (false, st)

/-- The parallel result lists of `self.collection.query(...)` that the
result loop of `ChromaVectorDB.search` walks by common index. -/
structure ChromaQueryReply where
  ids : List String
  documents : List String
  metadatas : List (List (String × String))
  distances : List Int

/-- The result loop of `ChromaVectorDB.search`: one `VectorSearchResult`
per index, with `score = 1.0 - distance`. -/
def convertReply : List String → List String → List (List (String × String)) →
    List Int → List VectorSearchResult
  | id :: ids, doc :: docs, md :: mds, dist :: dists =>
    { id := id
      content := doc
      metadata := md
      score := 1 - dist
      document_title := (alGet md "title").getD ""
      chunk_index := (alGet md "chunk_index").getD "0" } :: convertReply ids docs mds dists
  | _, _, _, _ => []

/-- `ChromaVectorDB.search` applied to the engine's reply. -/
def search (reply : ChromaQueryReply) : List VectorSearchResult :=
  convertReply reply.ids reply.documents reply.metadatas reply.distances

theorem convertReply_score_mem :
    ∀ {ids : List String} {docs : List String} {mds : List (List (String × String))}
      {dists : List Int} {x : Int},
    x ∈ (convertReply ids docs mds dists).map VectorSearchResult.score →
    ∃ d ∈ dists, x = 1 - d := by
  intro ids
  induction ids with
  | nil => intro docs mds dists x h; simp [convertReply] at h
  | cons id ids ih =>
    intro docs mds dists x h
    match docs, mds, dists with
    | [], _, _ => simp [convertReply] at h
    | _ :: _, [], _ => simp [convertReply] at h
    | _ :: _, _ :: _, [] => simp [convertReply] at h
    | doc :: docs, md :: mds, dist :: dists =>
      simp only [convertReply, List.map_cons, List.mem_cons] at h
      rcases h with h | h
      · exact ⟨dist, List.mem_cons_self _ _, h⟩
      · obtain ⟨d, hd, he⟩ := ih h
        exact ⟨d, List.mem_cons_of_mem _ hd, he⟩

/-- If the engine reports distances in ascending order, the converted
scores (`1 - distance`) are in descending order. -/
theorem convertReply_scores_sorted :
    ∀ {ids : List String} {docs : List String} {mds : List (List (String × String))}
      {dists : List Int},
    dists.Pairwise (fun a b => a ≤ b) →
    ((convertReply ids docs mds dists).map VectorSearchResult.score).Pairwise
      (fun a b => b ≤ a) := by
  intro ids
  induction ids with
  | nil => intro docs mds dists _; simp [convertReply]
  | cons id ids ih =>
    intro docs mds dists hs
    match docs, mds, dists with
    | [], _, _ => simp [convertReply]
    | _ :: _, [], _ => simp [convertReply]
    | _ :: _, _ :: _, [] => simp [convertReply]
    | doc :: docs, md :: mds, dist :: dists =>
      simp only [convertReply, List.map_cons]
      rw [List.pairwise_cons]
      rw [List.pairwise_cons] at hs
      refine ⟨?_, ih hs.2⟩
      intro x hx
      obtain ⟨d, hd, he⟩ := convertReply_score_mem hx
      have := hs.1 d hd
      omega

end ChromaVectorDB

/-! ## `VectorDatabaseManager` -/

namespace VectorDatabaseManager

/-- Which backend class `_create_database` instantiated. -/
inductive CreatedDB
  | chroma
  | faiss
deriving DecidableEq

/-- Errors escaping `_create_database`: the `ImportError` raised by a
backend constructor whose library is missing, or the `ValueError` for an
unsupported `db_type`. -/
inductive CreateError
  | importError
  | unsupportedType (db_type : String)
deriving DecidableEq

/-- `ChromaVectorDB.__init__` guard: raises `ImportError` when
`CHROMA_AVAILABLE` is false. -/
def mkChroma (chromaAvailable : Bool) : Except CreateError CreatedDB :=
  if chromaAvailable then .ok .chroma else .error .importError

/-- `FAISSVectorDB.__init__` guard: raises `ImportError` when
`FAISS_AVAILABLE` is false. -/
def mkFaiss (faissAvailable : Bool) : Except CreateError CreatedDB :=
  if faissAvailable then .ok .faiss else .error .importError

/-- Python's `str.lower()` (character-wise lowercasing). -/
def lowerPy (s : String) : String :=
  ⟨s.data.map Char.toLower⟩

/-- `VectorDatabaseManager._create_database`.  Returns the construction
outcome together with the value of `self.config.db_type` after the call
(the method mutates the config before constructing a fallback). -/
def createDatabase (chromaAvailable faissAvailable : Bool) (db_type : String) :
    Except CreateError CreatedDB × String :=
  if lowerPy db_type = "chroma" then
    if ¬ chromaAvailable then (mkFaiss faissAvailable, "faiss")
    else (mkChroma chromaAvailable, db_type)
  else if lowerPy db_type = "faiss" then
    if ¬ faissAvailable then (mkChroma chromaAvailable, "chroma")
    else (mkFaiss faissAvailable, db_type)
  else
    (.error (.unsupportedType db_type), db_type)

/-- The name each backend kind is designated by in `config.db_type`. -/
def dbName : CreatedDB → String
  | .chroma => "chroma"
  | .faiss => "faiss"

/-- The availability flag of a backend kind. -/
def availOf (chromaAvailable faissAvailable : Bool) : CreatedDB → Bool
  | .chroma => chromaAvailable
  | .faiss => faissAvailable

end VectorDatabaseManager

namespace FAISSVectorDB

theorem add_documents_eq_of_contents (env : Env) (st : FaissState)
    (docs : List DocRecord) (texts : List String)
    (hg : getContents docs = some texts) :
    add_documents env st docs =
      match addLoop st.indexVecs.length
          { st with indexVecs := st.indexVecs ++ embedBatch env texts } 0 docs with
      | (true, st2) => (true, save_index st2)
      | (false, st2) => (false, st2) := by
  unfold add_documents
  rw [hg]

/-- A batch whose records all carry id and content succeeds: the call
returns `true`, appends one vector per document, logs one index write
followed by one metadata write, and afterwards every batch id is in the
document store. -/
theorem add_documents_true_of_valid (env : Env) (st : FaissState) (docs : List DocRecord)
    (hids : ∀ d ∈ docs, d.id.isSome = true)
    (hcont : ∀ d ∈ docs, d.content.isSome = true) :
    (add_documents env st docs).1 = true ∧
    (add_documents env st docs).2.log =
      st.log ++ [FsOp.writeIndexFile, FsOp.writeMetadataFile] ∧
    (add_documents env st docs).2.indexVecs.length = st.indexVecs.length + docs.length ∧
    ∀ d ∈ docs, alContains (add_documents env st docs).2.document_store (d.id.getD "") = true := by
  rw [add_documents_eq_of_contents env st docs _ (getContents_of_valid hcont)]
  generalize hr : addLoop st.indexVecs.length
      { st with indexVecs := st.indexVecs ++
          embedBatch env (docs.map (fun d => d.content.getD "")) } 0 docs = res
  obtain ⟨b, st2⟩ := res
  have hb : b = true := by
    have := addLoop_true_of_ids st.indexVecs.length docs
      { st with indexVecs := st.indexVecs ++
          embedBatch env (docs.map (fun d => d.content.getD "")) } 0 hids
    rw [hr] at this
    exact this
  subst hb
  refine ⟨rfl, ?_, ?_, ?_⟩
  · have := addLoop_log st.indexVecs.length docs
      { st with indexVecs := st.indexVecs ++
          embedBatch env (docs.map (fun d => d.content.getD "")) } 0
    rw [hr] at this
    dsimp only at this
    simp only [save_index, this]
  · have := addLoop_indexVecs st.indexVecs.length docs
      { st with indexVecs := st.indexVecs ++
          embedBatch env (docs.map (fun d => d.content.getD "")) } 0
    rw [hr] at this
    dsimp only at this
    simp only [save_index, this, List.length_append, length_embedBatch, List.length_map]
  · intro d hd
    have := addLoop_contains_new st.indexVecs.length docs
      { st with indexVecs := st.indexVecs ++
          embedBatch env (docs.map (fun d => d.content.getD "")) } 0 hids d hd
    rw [hr] at this
    dsimp only at this
    simpa [save_index] using this

/-- Any `add_documents` call that reports success has performed exactly
one index-file write followed by one metadata-file write. -/
theorem add_documents_log_of_true (env : Env) (st : FaissState) (docs : List DocRecord)
    (h : (add_documents env st docs).1 = true) :
    (add_documents env st docs).2.log =
      st.log ++ [FsOp.writeIndexFile, FsOp.writeMetadataFile] := by
  cases hg : getContents docs with
  | none =>
    unfold add_documents at h
    rw [hg] at h
    simp at h
  | some texts =>
    rw [add_documents_eq_of_contents env st docs texts hg] at h ⊢
    generalize hr : addLoop st.indexVecs.length
        { st with indexVecs := st.indexVecs ++ embedBatch env texts } 0 docs = res at h ⊢
    obtain ⟨b, st2⟩ := res
    cases b
    · simp at h
    · have := addLoop_log st.indexVecs.length docs
        { st with indexVecs := st.indexVecs ++ embedBatch env texts } 0
      rw [hr] at this
      dsimp only at this
      simp only [save_index, this]

theorem rebuild_index_log (env : Env) (st : FaissState) :
    (rebuild_index env st).log =
      st.log ++ [FsOp.writeIndexFile, FsOp.writeMetadataFile] := by
  unfold rebuild_index
  by_cases hemp : st.document_store = []
  · simp [hemp, save_index]
  · rw [if_neg hemp]
    have hne : st.document_store.map storedToDoc ≠ [] := by simpa using hemp
    rw [if_neg hne]
    have hids : ∀ d ∈ st.document_store.map storedToDoc, d.id.isSome = true := by
      intro d hd
      obtain ⟨p, hp, he⟩ := List.mem_map.1 hd
      rw [← he]
      rfl
    have hcont : ∀ d ∈ st.document_store.map storedToDoc, d.content.isSome = true := by
      intro d hd
      obtain ⟨p, hp, he⟩ := List.mem_map.1 hd
      rw [← he]
      rfl
    exact (add_documents_true_of_valid env _ _ hids hcont).2.1

/-- Any `delete_document` call that reports success has performed
exactly one index-file write followed by one metadata-file write. -/
theorem delete_document_log_of_true (env : Env) (st : FaissState) (document_id : String)
    (h : (delete_document env st document_id).1 = true) :
    (delete_document env st document_id).2.log =
      st.log ++ [FsOp.writeIndexFile, FsOp.writeMetadataFile] := by
  unfold delete_document at h ⊢
  cases hg : alGet st.document_store document_id with
  | none =>
    rw [hg] at h
    simp at h
  | some entry =>
    rw [hg] at h
    dsimp only at h ⊢
    cases h1 : alGet st.id_to_index document_id with
    | none =>
      rw [h1] at h
      simp at h
    | some pos =>
      rw [h1] at h
      dsimp only at h ⊢
      cases h2 : alGet st.index_to_id entry.faiss_index with
      | none =>
        rw [h2] at h
        simp at h
      | some k =>
        dsimp only
        rw [rebuild_index_log]

end FAISSVectorDB

/-! ## Concrete instances used by counterexamples and witnesses -/

/-- A concrete embedding model: the length of the text, as a
one-dimensional vector. -/
def encLen : String → Vec := fun s => [(s.length : Int)]

/-- A concrete embedding model distinguishing the three documents of
the filter scenario of the specification. -/
def encTag : String → Vec := fun s =>
  if s = "A" then [3] else if s = "B" then [5] else if s = "C" then [2] else [1]

/-- A `FAISSVectorDB` configured with `index_type = "IndexFlatL2"`. -/
def envL2 : Env :=
  { cfg := { db_type := "faiss", index_type := .flatL2 }, encode := encLen, normalize := id }

/-- A `FAISSVectorDB` configured with the default
`index_type = "IndexFlatIP"` (normalization modelled by a concrete
opaque choice). -/
def envIP : Env :=
  { cfg := { db_type := "faiss", index_type := .flatIP }, encode := encTag, normalize := id }

/-- Two documents `a` and `b` inserted into the L2 instance. -/
def stab : FaissState :=
  (FAISSVectorDB.add_documents envL2 emptyFaissState
    [⟨some "a", some "a", []⟩, ⟨some "b", some "bb", []⟩]).2

/-- The specification's filter scenario: documents A (tag=x), B (tag=y),
C (tag=x) inserted into the IP instance. -/
def stABC : FaissState :=
  (FAISSVectorDB.add_documents envIP emptyFaissState
    [⟨some "A", some "A", [("tag", "x")]⟩,
     ⟨some "B", some "B", [("tag", "y")]⟩,
     ⟨some "C", some "C", [("tag", "x")]⟩]).2

/-- The result `search` produces for document A in the filter scenario. -/
def resA : VectorSearchResult :=
  { id := "A", content := "A", metadata := [("tag", "x")], score := 3,
    document_title := "", chunk_index := "0" }

/-- The result `search` produces for document B when no filter is given. -/
def resB : VectorSearchResult :=
  { id := "B", content := "B", metadata := [("tag", "y")], score := 5,
    document_title := "", chunk_index := "0" }

/-- The result `search` produces for document C in the filter scenario. -/
def resC : VectorSearchResult :=
  { id := "C", content := "C", metadata := [("tag", "x")], score := 2,
    document_title := "", chunk_index := "0" }

/-- The state after adding the same document id twice. -/
def stDup : FaissState :=
  FAISSVectorDB.runOps envL2 emptyFaissState
    [.add [⟨some "d", some "c", []⟩], .add [⟨some "d", some "c", []⟩]]

/-- A `ChromaVectorDB` bound to an existing empty collection. -/
def chromaEmpty : ChromaState :=
  { collections := [("rag_documents", [])], collection_name := "rag_documents" }

/-! ## Claims -/

/-- C1 (counterexample): calling `add_documents` twice with the same
document id leaves `index_to_id` with two entries (positions 0 and 1)
while `document_store` and `id_to_index` have one entry each, so the
mappings are not inverses and their sizes do not both equal the number
of live documents. -/
theorem C1_counterexample :
    stDup.document_store.length = 1 ∧
    stDup.index_to_id.length = 2 ∧
    alGet stDup.index_to_id 0 = some "d" ∧
    alGet stDup.id_to_index "d" = some 1 := by
  decide

/-- C1 (amended): after any sequence of `add_documents`/`delete_document`
calls starting from a fresh instance, in which every `add_documents`
batch consists of well-formed records with pairwise-distinct ids that
are not already present, `id_to_index` and `index_to_id` are exact
inverses and each has size equal to the number of live documents in
`document_store`. -/
theorem C1_invariant (env : Env) (ops : List FAISSVectorDB.DbOp)
    (h : FAISSVectorDB.goodRun env emptyFaissState ops) :
    (FAISSVectorDB.runOps env emptyFaissState ops).id_to_index.length =
      (FAISSVectorDB.runOps env emptyFaissState ops).document_store.length ∧
    (FAISSVectorDB.runOps env emptyFaissState ops).index_to_id.length =
      (FAISSVectorDB.runOps env emptyFaissState ops).document_store.length ∧
    ∀ (document_id : String) (pos : Nat),
      alGet (FAISSVectorDB.runOps env emptyFaissState ops).id_to_index document_id =
          some pos ↔
      alGet (FAISSVectorDB.runOps env emptyFaissState ops).index_to_id pos =
          some document_id :=
  FAISSVectorDB.inv_bijection
    (FAISSVectorDB.inv_runOps env ops emptyFaissState FAISSVectorDB.inv_empty h)

/-- C1 (witness): a concrete good sequence together with the invariant
it guarantees. -/
theorem C1_witness :
    FAISSVectorDB.goodRun envL2 emptyFaissState [.add [⟨some "a", some "x", []⟩]] ∧
    ((FAISSVectorDB.runOps envL2 emptyFaissState
        [.add [⟨some "a", some "x", []⟩]]).id_to_index.length =
      (FAISSVectorDB.runOps envL2 emptyFaissState
        [.add [⟨some "a", some "x", []⟩]]).document_store.length ∧
    (FAISSVectorDB.runOps envL2 emptyFaissState
        [.add [⟨some "a", some "x", []⟩]]).index_to_id.length =
      (FAISSVectorDB.runOps envL2 emptyFaissState
        [.add [⟨some "a", some "x", []⟩]]).document_store.length ∧
    ∀ (document_id : String) (pos : Nat),
      alGet (FAISSVectorDB.runOps envL2 emptyFaissState
          [.add [⟨some "a", some "x", []⟩]]).id_to_index document_id = some pos ↔
      alGet (FAISSVectorDB.runOps envL2 emptyFaissState
          [.add [⟨some "a", some "x", []⟩]]).index_to_id pos = some document_id) :=
  ⟨by decide, C1_invariant envL2 [.add [⟨some "a", some "x", []⟩]] (by decide)⟩

/-- C2 (counterexample): a batch whose second record lacks the `"id"`
field makes `add_documents` report failure, yet the raw index has been
extended by both embeddings while only the first document reached the
mappings — the in-memory state is changed on a failing call and the
id-to-position mapping disagrees with the raw index. -/
theorem C2_counterexample :
    (FAISSVectorDB.add_documents envL2 emptyFaissState
        [⟨some "a", some "x", []⟩, ⟨none, some "y", []⟩]).1 = false ∧
    (FAISSVectorDB.add_documents envL2 emptyFaissState
        [⟨some "a", some "x", []⟩, ⟨none, some "y", []⟩]).2.indexVecs.length = 2 ∧
    (FAISSVectorDB.add_documents envL2 emptyFaissState
        [⟨some "a", some "x", []⟩, ⟨none, some "y", []⟩]).2.id_to_index.length = 1 ∧
    (FAISSVectorDB.add_documents envL2 emptyFaissState
        [⟨some "a", some "x", []⟩, ⟨none, some "y", []⟩]).2.document_store.length = 1 := by
  decide

/-- C2 (amended): `add_documents` leaves the in-memory state unchanged
and returns failure when a record lacks its `"content"` field (the only
validation that runs before any mutation); when every record carries
both `"id"` and `"content"` the call succeeds and every document of the
batch is visible afterwards (one vector appended per document, every
batch id present in the document store).  A record lacking only `"id"`,
however, fails after the raw index has already been extended (see the
counterexample), so atomicity holds only for pre-mutation failures. -/
theorem C2_atomicity :
    (∀ (env : Env) (st : FaissState) (docs : List DocRecord),
      (∃ d ∈ docs, d.content = none) →
      FAISSVectorDB.add_documents env st docs = (false, st)) ∧
    (∀ (env : Env) (st : FaissState) (docs : List DocRecord),
      (∀ d ∈ docs, d.id.isSome = true ∧ d.content.isSome = true) →
      (FAISSVectorDB.add_documents env st docs).1 = true ∧
      (FAISSVectorDB.add_documents env st docs).2.indexVecs.length =
        st.indexVecs.length + docs.length ∧
      ∀ d ∈ docs,
        alContains (FAISSVectorDB.add_documents env st docs).2.document_store
          (d.id.getD "") = true) := by
  constructor
  · rintro env st docs ⟨d, hd, hc⟩
    unfold FAISSVectorDB.add_documents
    rw [FAISSVectorDB.getContents_none hd hc]
  · intro env st docs h
    have hv := FAISSVectorDB.add_documents_true_of_valid env st docs
      (fun d hd => (h d hd).1) (fun d hd => (h d hd).2)
    exact ⟨hv.1, hv.2.2.1, hv.2.2.2⟩

/-- C2 (witness): a concrete well-formed batch on which the successful
branch of the amended claim is instantiated. -/
theorem C2_witness :
    (∀ d ∈ [(⟨some "a", some "x", []⟩ : DocRecord)],
      d.id.isSome = true ∧ d.content.isSome = true) ∧
    ((FAISSVectorDB.add_documents envL2 emptyFaissState
        [⟨some "a", some "x", []⟩]).1 = true ∧
      (FAISSVectorDB.add_documents envL2 emptyFaissState
        [⟨some "a", some "x", []⟩]).2.indexVecs.length =
        emptyFaissState.indexVecs.length + [(⟨some "a", some "x", []⟩ : DocRecord)].length ∧
      ∀ d ∈ [(⟨some "a", some "x", []⟩ : DocRecord)],
        alContains (FAISSVectorDB.add_documents envL2 emptyFaissState
          [⟨some "a", some "x", []⟩]).2.document_store (d.id.getD "") = true) :=
  ⟨by decide, C2_atomicity.2 envL2 emptyFaissState [⟨some "a", some "x", []⟩] (by decide)⟩

/-- C3 (counterexample): with `index_type = "IndexFlatL2"`, `search`
surfaces raw squared L2 distances as scores in ascending order: the
most similar document gets score 0 and the less similar one score 1, so
the sequence is not ordered descending by score and a more similar
document has the lower score. -/
theorem C3_counterexample :
    (FAISSVectorDB.search envL2 stab "q" 2 []).map VectorSearchResult.score = [0, 1] ∧
    ¬ ((FAISSVectorDB.search envL2 stab "q" 2 []).map VectorSearchResult.score).Pairwise
        (fun a b => b ≤ a) := by
  constructor
  · decide
  · decide

/-- C3 (amended): result ordering depends on the index family.  For
`IndexFlatIP` (inner-product scores) results are ordered descending by
score; for `IndexFlatL2` the score field holds the raw squared distance
and results are ordered ascending by score (lower is better); the
Chroma backend converts engine distances via `score = 1 - distance`, so
its results are descending by score whenever the engine reports
distances ascending. -/
theorem C3_score_order :
    (∀ (env : Env) (st : FaissState) (query : String) (top_k : Nat)
        (filt : List (String × String)),
      env.cfg.index_type = IndexType.flatIP →
      ((FAISSVectorDB.search env st query top_k filt).map
          VectorSearchResult.score).Pairwise (fun a b => b ≤ a)) ∧
    (∀ (env : Env) (st : FaissState) (query : String) (top_k : Nat)
        (filt : List (String × String)),
      env.cfg.index_type = IndexType.flatL2 →
      ((FAISSVectorDB.search env st query top_k filt).map
          VectorSearchResult.score).Pairwise (fun a b => a ≤ b)) ∧
    (∀ (ids : List String) (docs : List String)
        (mds : List (List (String × String))) (dists : List Int),
      dists.Pairwise (fun a b => a ≤ b) →
      ((ChromaVectorDB.convertReply ids docs mds dists).map
          VectorSearchResult.score).Pairwise (fun a b => b ≤ a)) := by
  refine ⟨?_, ?_, ?_⟩
  · intro env st query top_k filt h
    have := FAISSVectorDB.search_scores_pairwise env st query top_k filt
    rw [h] at this
    exact this
  · intro env st query top_k filt h
    have := FAISSVectorDB.search_scores_pairwise env st query top_k filt
    rw [h] at this
    exact this
  · intro ids docs mds dists h
    exact ChromaVectorDB.convertReply_scores_sorted h

/-- C3 (witness): the descending-order guarantee instantiated on the
concrete inner-product instance. -/
theorem C3_witness :
    envIP.cfg.index_type = IndexType.flatIP ∧
    ((FAISSVectorDB.search envIP stABC "q" 3 []).map
        VectorSearchResult.score).Pairwise (fun a b => b ≤ a) :=
  ⟨rfl, C3_score_order.1 envIP stABC "q" 3 [] rfl⟩

/-- C4: the metadata filter is a post-filter — every returned result's
metadata satisfies every key=value pair of the filter — and in the
concrete scenario with documents A (tag=x), B (tag=y), C (tag=x)
stored, `search(top_k=3, filter={tag:x})` returns exactly A and C,
ranked by score. -/
theorem C4_filter :
    (∀ (env : Env) (st : FaissState) (query : String) (top_k : Nat)
        (filt : List (String × String)) (r : VectorSearchResult),
      r ∈ FAISSVectorDB.search env st query top_k filt →
      ∀ kv ∈ filt, alGet r.metadata kv.1 = some kv.2) ∧
    FAISSVectorDB.search envIP stABC "q" 3 [("tag", "x")] = [resA, resC] := by
  constructor
  · intro env st query top_k filt r hr kv hkv
    obtain ⟨d, _, _, hm, _, hfilt⟩ := FAISSVectorDB.search_result_live hr
    rw [hm]
    exact hfilt kv hkv
  · decide

/-- C4 (witness): the filter guarantee instantiated on the concrete
result A of the scenario. -/
theorem C4_witness :
    resA ∈ FAISSVectorDB.search envIP stABC "q" 3 [("tag", "x")] ∧
    alGet resA.metadata "tag" = some "x" :=
  ⟨by decide,
    C4_filter.1 envIP stABC "q" 3 [("tag", "x")] resA (by decide) ("tag", "x") (by decide)⟩

/-- C5: deleting a stored document succeeds, removes exactly its entry
from the document store (remaining ids, contents and metadata unchanged,
in stored order), rebuilds the raw index from scratch by re-embedding
every remaining document in stored order, decreases
`get_collection_stats().total_documents` by exactly one, leaves a
freshly-initialized empty index when the store becomes empty, and the
deleted id never appears in subsequent search results. -/
theorem C5_delete_rebuild (env : Env) (st : FaissState) (document_id : String)
    (entry : StoredDoc) (hInv : FAISSVectorDB.Inv st)
    (h : alGet st.document_store document_id = some entry) :
    (FAISSVectorDB.delete_document env st document_id).1 = true ∧
    FAISSVectorDB.stripPos
        (FAISSVectorDB.delete_document env st document_id).2.document_store =
      FAISSVectorDB.stripPos (alErase st.document_store document_id) ∧
    (FAISSVectorDB.delete_document env st document_id).2.indexVecs =
      FAISSVectorDB.embedBatch env
        ((alErase st.document_store document_id).map (fun p => p.2.content)) ∧
    (FAISSVectorDB.get_collection_stats env
        (FAISSVectorDB.delete_document env st document_id).2).total_documents + 1 =
      (FAISSVectorDB.get_collection_stats env st).total_documents ∧
    (alErase st.document_store document_id = [] →
      (FAISSVectorDB.delete_document env st document_id).2.indexVecs = [] ∧
      (FAISSVectorDB.delete_document env st document_id).2.document_store = [] ∧
      (FAISSVectorDB.delete_document env st document_id).2.id_to_index = [] ∧
      (FAISSVectorDB.delete_document env st document_id).2.index_to_id = []) ∧
    ∀ (query : String) (top_k : Nat) (filt : List (String × String))
        (r : VectorSearchResult),
      r ∈ FAISSVectorDB.search env
        (FAISSVectorDB.delete_document env st document_id).2 query top_k filt →
      r.id ≠ document_id := by
  have hC := hInv.2.2.1
  rw [FAISSVectorDB.delete_document_closed env st document_id entry hInv h]
  refine ⟨rfl, ?_, rfl, ?_, ?_, ?_⟩
  · exact FAISSVectorDB.stripPos_reindex 0 _
  · simp only [FAISSVectorDB.get_collection_stats, FAISSVectorDB.length_reindex]
    exact length_alErase h
  · intro he
    simp [he, FAISSVectorDB.reindex, FAISSVectorDB.storePairs, FAISSVectorDB.posPairs,
      FAISSVectorDB.embedBatch]
  · intro query top_k filt r hr
    obtain ⟨d, hd, _, _, _, _⟩ := FAISSVectorDB.search_result_live hr
    intro he
    subst he
    have h1 : (alGet (FAISSVectorDB.reindex 0
        (alErase st.document_store r.id)) r.id).isSome = true := by
      rw [hd]
      rfl
    rw [FAISSVectorDB.alGet_reindex_isSome, alGet_erase_self hC] at h1
    simp at h1

/-- C5 (witness): the deletion guarantees instantiated on the concrete
two-document L2 instance. -/
theorem C5_witness :
    FAISSVectorDB.Inv stab ∧
    alGet stab.document_store "a" = some ⟨"a", [], 0⟩ ∧
    (FAISSVectorDB.delete_document envL2 stab "a").1 = true ∧
    (FAISSVectorDB.get_collection_stats envL2
        (FAISSVectorDB.delete_document envL2 stab "a").2).total_documents + 1 =
      (FAISSVectorDB.get_collection_stats envL2 stab).total_documents :=
  ⟨by decide, by decide,
    (C5_delete_rebuild envL2 stab "a" ⟨"a", [], 0⟩ (by decide) (by decide)).1,
    (C5_delete_rebuild envL2 stab "a" ⟨"a", [], 0⟩ (by decide) (by decide)).2.2.2.1⟩

/-- C6 (counterexample): the Chroma backend's `delete_document` returns
`True` for an id that does not exist in the collection (the method
performs no existence check and the engine's delete ignores unknown
ids), so "returns false exactly when the ID is unknown" fails for the
ManagedStore backend. -/
theorem C6_counterexample :
    (ChromaVectorDB.delete_document chromaEmpty "missing").1 = true ∧
    "missing" ∉ (ChromaVectorDB.boundEntries chromaEmpty).map ChromaEntry.id := by
  decide

/-- C6 (amended): for the SelfManagedIndex, `delete_document` of an
unknown id returns `false` and leaves every component of the state
unchanged, and on invariant states it returns `true` exactly for known
ids; the Chroma backend instead returns `true` regardless of whether
the id existed (it would return `false` only if the engine raised). -/
theorem C6_delete_result :
    (∀ (env : Env) (st : FaissState) (document_id : String),
      alGet st.document_store document_id = none →
      FAISSVectorDB.delete_document env st document_id = (false, st)) ∧
    (∀ (env : Env) (st : FaissState) (document_id : String) (entry : StoredDoc),
      FAISSVectorDB.Inv st → alGet st.document_store document_id = some entry →
      (FAISSVectorDB.delete_document env st document_id).1 = true) ∧
    (∀ (st : ChromaState) (document_id : String),
      (ChromaVectorDB.delete_document st document_id).1 = true) := by
  refine ⟨?_, ?_, ?_⟩
  · intro env st document_id h
    unfold FAISSVectorDB.delete_document
    rw [h]
  · intro env st document_id entry hInv h
    rw [FAISSVectorDB.delete_document_closed env st document_id entry hInv h]
  · intro st document_id
    rfl

/-- C6 (witness): deleting the unknown id "zzz" from the concrete
two-document instance returns `false` with the state unchanged. -/
theorem C6_witness :
    alGet stab.document_store "zzz" = none ∧
    FAISSVectorDB.delete_document envL2 stab "zzz" = (false, stab) :=
  ⟨by decide, C6_delete_result.1 envL2 stab "zzz" (by decide)⟩

/-- C7 (counterexample): a mutating call (here `clear_collection` on a
fresh instance) persists by writing the index file and then writing the
metadata file directly in place; no temporary-file write and no rename
ever occurs, so the write-to-temp + atomic-rename protocol of the claim
is not what the code does. -/
theorem C7_counterexample :
    (FAISSVectorDB.clear_collection emptyFaissState).2.log =
      [FsOp.writeIndexFile, FsOp.writeMetadataFile] ∧
    FsOp.writeTempMetadataFile ∉ (FAISSVectorDB.clear_collection emptyFaissState).2.log ∧
    FsOp.renameMetadataFile ∉ (FAISSVectorDB.clear_collection emptyFaissState).2.log := by
  decide

/-- C7 (amended): every successful mutating call
(`add_documents`, `delete_document`, `clear_collection`) persists the
state by writing the raw index file first and then writing the metadata
file — directly in place, not via a temporary file and rename. -/
theorem C7_persistence_order :
    (∀ (env : Env) (st : FaissState) (docs : List DocRecord),
      (FAISSVectorDB.add_documents env st docs).1 = true →
      (FAISSVectorDB.add_documents env st docs).2.log =
        st.log ++ [FsOp.writeIndexFile, FsOp.writeMetadataFile]) ∧
    (∀ (env : Env) (st : FaissState) (document_id : String),
      (FAISSVectorDB.delete_document env st document_id).1 = true →
      (FAISSVectorDB.delete_document env st document_id).2.log =
        st.log ++ [FsOp.writeIndexFile, FsOp.writeMetadataFile]) ∧
    (∀ st : FaissState,
      (FAISSVectorDB.clear_collection st).2.log =
        st.log ++ [FsOp.writeIndexFile, FsOp.writeMetadataFile]) := by
  refine ⟨?_, ?_, ?_⟩
  · intro env st docs h
    exact FAISSVectorDB.add_documents_log_of_true env st docs h
  · intro env st document_id h
    exact FAISSVectorDB.delete_document_log_of_true env st document_id h
  · intro st
    rfl

/-- C7 (witness): the write order instantiated on a concrete successful
`add_documents` call. -/
theorem C7_witness :
    (FAISSVectorDB.add_documents envL2 emptyFaissState
        [⟨some "a", some "x", []⟩]).1 = true ∧
    (FAISSVectorDB.add_documents envL2 emptyFaissState
        [⟨some "a", some "x", []⟩]).2.log =
      emptyFaissState.log ++ [FsOp.writeIndexFile, FsOp.writeMetadataFile] :=
  ⟨by decide,
    C7_persistence_order.1 envL2 emptyFaissState [⟨some "a", some "x", []⟩] (by decide)⟩

/-- C8: `clear_collection` is idempotent on both backends: called twice
in a row, `total_documents` is 0 after each call and the second call
also succeeds (for Chroma this needs the bound collection to exist,
which construction and every clear guarantee). -/
theorem C8_idempotent_clear :
    (∀ (env : Env) (st : FaissState),
      (FAISSVectorDB.clear_collection st).1 = true ∧
      (FAISSVectorDB.get_collection_stats env
        (FAISSVectorDB.clear_collection st).2).total_documents = 0 ∧
      (FAISSVectorDB.clear_collection (FAISSVectorDB.clear_collection st).2).1 = true ∧
      (FAISSVectorDB.get_collection_stats env
        (FAISSVectorDB.clear_collection
          (FAISSVectorDB.clear_collection st).2).2).total_documents = 0) ∧
    (∀ st : ChromaState, (alGet st.collections st.collection_name).isSome = true →
      (ChromaVectorDB.clear_collection st).1 = true ∧
      ChromaVectorDB.chroma_count (ChromaVectorDB.clear_collection st).2 = 0 ∧
      (ChromaVectorDB.clear_collection (ChromaVectorDB.clear_collection st).2).1 = true ∧
      ChromaVectorDB.chroma_count
        (ChromaVectorDB.clear_collection (ChromaVectorDB.clear_collection st).2).2 = 0) := by
  constructor
  · intro env st
    refine ⟨rfl, rfl, rfl, rfl⟩
  · intro st h
    unfold ChromaVectorDB.clear_collection
    rw [if_pos h]
    have h2 : alGet (alSet (alErase st.collections st.collection_name)
        st.collection_name ([] : List ChromaEntry)) st.collection_name = some [] :=
      alGet_set_self _ _ _
    constructor
    · rfl
    constructor
    · simp [ChromaVectorDB.chroma_count, ChromaVectorDB.boundEntries, h2]
    · rw [if_pos (by simp [h2])]
      refine ⟨rfl, ?_⟩
      simp [ChromaVectorDB.chroma_count, ChromaVectorDB.boundEntries, alGet_set_self]

/-- C8 (witness): idempotent clear instantiated on a concrete Chroma
state whose collection exists. -/
theorem C8_witness :
    (alGet chromaEmpty.collections chromaEmpty.collection_name).isSome = true ∧
    ((ChromaVectorDB.clear_collection chromaEmpty).1 = true ∧
      ChromaVectorDB.chroma_count (ChromaVectorDB.clear_collection chromaEmpty).2 = 0 ∧
      (ChromaVectorDB.clear_collection
        (ChromaVectorDB.clear_collection chromaEmpty).2).1 = true ∧
      ChromaVectorDB.chroma_count
        (ChromaVectorDB.clear_collection
          (ChromaVectorDB.clear_collection chromaEmpty).2).2 = 0) :=
  ⟨by decide, C8_idempotent_clear.2 chromaEmpty (by decide)⟩

/-- C9: whenever `_create_database` returns a backend, the effective
`config.db_type` names that backend (lower-cased) and that backend's
prerequisites were available; if the requested kind is unavailable the
constructor falls back to the other kind and rewrites the config; an
unrecognized kind raises the configuration error instead of falling
back. -/
theorem C9_fallback :
    (∀ (chromaAvailable faissAvailable : Bool) (db_type : String)
        (b : VectorDatabaseManager.CreatedDB) (cfg2 : String),
      VectorDatabaseManager.createDatabase chromaAvailable faissAvailable db_type =
        (Except.ok b, cfg2) →
      VectorDatabaseManager.lowerPy cfg2 = VectorDatabaseManager.dbName b ∧
      VectorDatabaseManager.availOf chromaAvailable faissAvailable b = true) ∧
    (∀ (faissAvailable : Bool) (db_type : String),
      VectorDatabaseManager.lowerPy db_type = "chroma" →
      VectorDatabaseManager.createDatabase false faissAvailable db_type =
        (VectorDatabaseManager.mkFaiss faissAvailable, "faiss")) ∧
    (∀ (chromaAvailable : Bool) (db_type : String),
      VectorDatabaseManager.lowerPy db_type = "faiss" →
      VectorDatabaseManager.createDatabase chromaAvailable false db_type =
        (VectorDatabaseManager.mkChroma chromaAvailable, "chroma")) ∧
    (∀ (chromaAvailable faissAvailable : Bool) (db_type : String),
      VectorDatabaseManager.lowerPy db_type ≠ "chroma" →
      VectorDatabaseManager.lowerPy db_type ≠ "faiss" →
      VectorDatabaseManager.createDatabase chromaAvailable faissAvailable db_type =
        (Except.error (.unsupportedType db_type), db_type)) := by
  have hf : VectorDatabaseManager.lowerPy "faiss" = "faiss" := by decide
  have hc : VectorDatabaseManager.lowerPy "chroma" = "chroma" := by decide
  refine ⟨?_, ?_, ?_, ?_⟩
  · intro ca fa db_type b cfg2 h
    by_cases h1 : VectorDatabaseManager.lowerPy db_type = "chroma"
    · cases ca <;> cases fa <;>
        simp [VectorDatabaseManager.createDatabase, h1, VectorDatabaseManager.mkChroma,
          VectorDatabaseManager.mkFaiss] at h <;>
        · obtain ⟨rfl, rfl⟩ := h
          simp [VectorDatabaseManager.dbName, VectorDatabaseManager.availOf, h1, hf, hc]
    · by_cases h2 : VectorDatabaseManager.lowerPy db_type = "faiss"
      · cases ca <;> cases fa <;>
          simp [VectorDatabaseManager.createDatabase, h1, h2, VectorDatabaseManager.mkChroma,
            VectorDatabaseManager.mkFaiss] at h <;>
          · obtain ⟨rfl, rfl⟩ := h
            simp [VectorDatabaseManager.dbName, VectorDatabaseManager.availOf, h1, h2, hf, hc]
      · simp [VectorDatabaseManager.createDatabase, h1, h2] at h
  · intro fa db_type h1
    simp [VectorDatabaseManager.createDatabase, h1]
  · intro ca db_type h2
    by_cases h1 : VectorDatabaseManager.lowerPy db_type = "chroma"
    · rw [h1] at h2
      simp at h2
    · simp [VectorDatabaseManager.createDatabase, h1, h2]
  · intro ca fa db_type h1 h2
    simp [VectorDatabaseManager.createDatabase, h1, h2]

/-- C9 (witness): requesting "chroma" with ChromaDB unavailable and
FAISS available yields the FAISS backend with the config rewritten to
"faiss". -/
theorem C9_witness :
    VectorDatabaseManager.createDatabase false true "chroma" =
      (Except.ok VectorDatabaseManager.CreatedDB.faiss, "faiss") ∧
    (VectorDatabaseManager.lowerPy "faiss" =
        VectorDatabaseManager.dbName VectorDatabaseManager.CreatedDB.faiss ∧
      VectorDatabaseManager.availOf false true VectorDatabaseManager.CreatedDB.faiss = true) :=
  ⟨rfl, C9_fallback.1 false true "chroma" VectorDatabaseManager.CreatedDB.faiss
    "faiss" rfl⟩

/-- C10: `search` on the SelfManagedIndex returns at most `top_k`
results, and every returned result refers to a live document: its id is
a key of `document_store` and its content and metadata equal the stored
ones (raw positions absent from `index_to_id` contribute nothing). -/
theorem C10_search_live (env : Env) (st : FaissState) (query : String)
    (top_k : Nat) (filt : List (String × String)) :
    (FAISSVectorDB.search env st query top_k filt).length ≤ top_k ∧
    ∀ r ∈ FAISSVectorDB.search env st query top_k filt,
      ∃ d, alGet st.document_store r.id = some d ∧
        r.content = d.content ∧ r.metadata = d.metadata := by
  refine ⟨FAISSVectorDB.length_search_le env st query top_k filt, ?_⟩
  intro r hr
  obtain ⟨d, hd, hc, hm, _, _⟩ := FAISSVectorDB.search_result_live hr
  exact ⟨d, hd, hc, hm⟩

/-- C10 (witness): the liveness guarantee instantiated on the concrete
scenario's result B. -/
theorem C10_witness :
    resB ∈ FAISSVectorDB.search envIP stABC "q" 3 [] ∧
    ∃ d, alGet stABC.document_store resB.id = some d ∧
      resB.content = d.content ∧ resB.metadata = d.metadata :=
  ⟨by decide, (C10_search_live envIP stABC "q" 3 []).2 resB (by decide)⟩
